import Mathlib

/-!
Verification of the hybrid-retrieval document-search backend.

This file gives a shallow embedding, in Lean 4, of the retrieval core of the
repository: PDF chunking (pdf_processor.py), Reciprocal Rank Fusion
(qdrant_manager.py), hybrid search with score-based combination, access
filtering and cached embedding generation (vector_store.py), and the RAG
chatbot fallback path (chatbot.py).  External collaborators (the embedding
model, the vector database, sqlite FTS, nltk tokenization, the MD5 function
from hashlib and the LLM) are passed in as parameters; every definition below
is translated from the named Python function.
-/

namespace NDocs

/-! ### Configuration constants (config.py) -/

namespace Config

def MIN_CHARS_PER_PAGE : Nat := 50

def MIN_SENTENCE_LENGTH : Nat := 5

def SENTENCES_PER_CHUNK : Nat := 5

def SIMILARITY_TOP_K : Nat := 8

def CONTEXT_CHUNKS_FOR_RAG : Nat := 3

end Config

/-! ### PDF processing (pdf_processor.py)

`PDFProcessor.chunk_text` splits each page into sentences (via nltk
`sent_tokenize`, here a parameter `st`), keeps the sentences with at least
`MIN_SENTENCE_LENGTH` words, and groups them `SENTENCES_PER_CHUNK` at a time;
when a page has no valid sentence it falls back to grouping raw words
`MIN_SENTENCE_LENGTH * SENTENCES_PER_CHUNK` at a time.  Every chunk gets the
identifier `md5(f"{pdf_name}_{page}_{i}")` where `i` is the loop offset;
`md5` (hashlib) is a parameter. -/

structure PageText where
  pdf_name : String
  page : Nat
  text : String
deriving Repr, DecidableEq

structure ChunkMeta where
  pdf_name : String
  page : Nat
  chunk_id : String
deriving Repr, DecidableEq

structure Chunk where
  text : String
  metadata : ChunkMeta
deriving Repr, DecidableEq

/-- Helper for Python `str.split()`: walk the characters, collecting the
current word in `acc` (reversed) and emitting it at each whitespace run. -/
def splitWsAux : List Char → List Char → List (List Char)
  | [], acc => if acc = [] then [] else [acc.reverse]
  | c :: cs, acc =>
      if c.isWhitespace then
        (if acc = [] then splitWsAux cs [] else acc.reverse :: splitWsAux cs [])
      else splitWsAux cs (c :: acc)

/-- Python `str.split()` with no argument: split on whitespace runs and drop
empty pieces. -/
def pySplit (s : String) : List String :=
  (splitWsAux s.data []).map (fun cs => String.mk cs)

/-- The hashed string `f"{pdf_name}_{page}_{i}"`. -/
def idString (name : String) (page off : Nat) : String :=
  name ++ "_" ++ toString page ++ "_" ++ toString off

/-- The loop `for i in range(0, len(valid_sentences), SENTENCES_PER_CHUNK)`
of `chunk_text`: at offset `off` the chunk text is
`' '.join(valid_sentences[off:off+SENTENCES_PER_CHUNK])` and the chunk id is
`md5(idString name page off)`. -/
def chunkFromSentences (md5 : String → String) (name : String) (page : Nat)
    (off : Nat) (l : List String) : List Chunk :=
  if h : l = [] then []
  else
    { text := String.intercalate " " (l.take Config.SENTENCES_PER_CHUNK),
      metadata := { pdf_name := name, page := page,
                    chunk_id := md5 (idString name page off) } } ::
    chunkFromSentences md5 name page (off + Config.SENTENCES_PER_CHUNK)
      (l.drop Config.SENTENCES_PER_CHUNK)
termination_by l.length
decreasing_by
  have hpos : 0 < l.length := List.length_pos.mpr h
  simp only [List.length_drop, Config.SENTENCES_PER_CHUNK]
  omega

/-- The fallback loop of `chunk_text` for pages without a valid sentence:
groups of `MIN_SENTENCE_LENGTH * SENTENCES_PER_CHUNK` words. -/
def chunkFromWords (md5 : String → String) (name : String) (page : Nat)
    (off : Nat) (ws : List String) : List Chunk :=
  if h : ws = [] then []
  else
    { text := String.intercalate " "
        (ws.take (Config.MIN_SENTENCE_LENGTH * Config.SENTENCES_PER_CHUNK)),
      metadata := { pdf_name := name, page := page,
                    chunk_id := md5 (idString name page off) } } ::
    chunkFromWords md5 name page
      (off + Config.MIN_SENTENCE_LENGTH * Config.SENTENCES_PER_CHUNK)
      (ws.drop (Config.MIN_SENTENCE_LENGTH * Config.SENTENCES_PER_CHUNK))
termination_by ws.length
decreasing_by
  have hpos : 0 < ws.length := List.length_pos.mpr h
  simp only [List.length_drop, Config.MIN_SENTENCE_LENGTH,
    Config.SENTENCES_PER_CHUNK]
  omega

/-- `valid_sentences = [s for s in sent_tokenize(page text) if
len(s.split()) >= MIN_SENTENCE_LENGTH]`. -/
def validSentences (st : String → List String) (text : String) : List String :=
  (st text).filter (fun s => Config.MIN_SENTENCE_LENGTH ≤ (pySplit s).length)

/-- The body of the `for page in pages_text` loop of `chunk_text`. -/
def pageChunks (st : String → List String) (md5 : String → String)
    (pg : PageText) : List Chunk :=
  if validSentences st pg.text = [] then
    chunkFromWords md5 pg.pdf_name pg.page 0 (pySplit pg.text)
  else
    chunkFromSentences md5 pg.pdf_name pg.page 0 (validSentences st pg.text)

/-- `PDFProcessor.chunk_text` over a list of extracted pages. -/
def chunk_text (st : String → List String) (md5 : String → String)
    (pages : List PageText) : List Chunk :=
  pages.flatMap (pageChunks st md5)

/-- The sentence groups underlying the chunks of one page: successive slices
of `SENTENCES_PER_CHUNK` sentences. -/
def sGroups (l : List String) : List (List String) :=
  if h : l = [] then []
  else l.take Config.SENTENCES_PER_CHUNK ::
    sGroups (l.drop Config.SENTENCES_PER_CHUNK)
termination_by l.length
decreasing_by
  have hpos : 0 < l.length := List.length_pos.mpr h
  simp only [List.length_drop, Config.SENTENCES_PER_CHUNK]
  omega

/-! ### A stable descending sort

Both `QdrantManager._fuse_results` and `VectorStore._combine_results` sort
with Python `sorted(..., key=..., reverse=True)` / `list.sort(key=...,
reverse=True)`, which is the stable sort by non-increasing key.  The stable
descending sort of a list is unique, so the structurally recursive insertion
sort below computes exactly what CPython computes: an element is inserted
before the first earlier-sorted element whose key is less than or equal to
its own (elements of equal key keep their original relative order). -/

def sinsert {α : Type} (key : α → ℚ) (a : α) : List α → List α
  | [] => [a]
  | b :: bs => if key b ≤ key a then a :: b :: bs else b :: sinsert key a bs

def ssort {α : Type} (key : α → ℚ) : List α → List α
  | [] => []
  | a :: as => sinsert key a (ssort key as)

/-! ### Reciprocal Rank Fusion (qdrant_manager.py)

`QdrantManager._fuse_results` takes the vector-search hits (objects with an
`id` and a `payload`) and the keyword rows `(id, text, pdf_name, page)` from
sqlite, builds a Python dict keyed by chunk id where each occurrence at
1-based rank `r` contributes `1.0 / (r + 60)` to the score (summed when the
id is already present), then returns the dict values sorted by descending
score and truncated to `SIMILARITY_TOP_K`. -/

structure FPayload where
  text : String
  pdf_name : String
  page : Nat
deriving Repr, DecidableEq

/-- A vector-search hit as consumed by `_fuse_results` (`result.id`,
`result.payload`). -/
structure VPoint where
  id : String
  payload : FPayload
deriving Repr, DecidableEq

/-- A keyword row `(id, text, pdf_name, page)` returned by
`KeywordDatabase.search`. -/
structure KRow where
  id : String
  text : String
  pdf_name : String
  page : Nat
deriving Repr, DecidableEq

/-- An entry of the `combined` dict of `_fuse_results`. -/
structure FusedEntry where
  score : ℚ
  payload : FPayload
  id : String
deriving Repr, DecidableEq

/-- The `combined` dict, as an insertion-ordered association list keyed by
`FusedEntry.id` (Python dicts preserve insertion order and update values in
place). -/
def dlookup (id : String) : List FusedEntry → Option FusedEntry
  | [] => none
  | e :: es => if e.id = id then some e else dlookup id es

/-- Python `combined[id] = entry`: overwrite in place, else append. -/
def dinsert (e : FusedEntry) : List FusedEntry → List FusedEntry
  | [] => [e]
  | x :: xs => if x.id = e.id then e :: xs else x :: dinsert e xs

/-- Python `combined[id]["score"] += s`. -/
def daddScore (id : String) (s : ℚ) (d : List FusedEntry) : List FusedEntry :=
  d.map (fun e => if e.id = id then { e with score := e.score + s } else e)

/-- Python `id in combined`. -/
def dcontains (id : String) (d : List FusedEntry) : Bool :=
  d.any (fun e => e.id = id)

/-- The dict entry made from a vector hit at 1-based rank `r`
(`1.0 / (rank + 60)`, RRF constant k=60). -/
def ventry (p : VPoint) (r : Nat) : FusedEntry :=
  { score := 1 / ((r : ℚ) + 60), payload := p.payload, id := p.id }

/-- The dict entry made from a keyword row at 1-based rank `r`. -/
def kentry (row : KRow) (r : Nat) : FusedEntry :=
  { score := 1 / ((r : ℚ) + 60),
    payload := { text := row.text, pdf_name := row.pdf_name, page := row.page },
    id := row.id }

/-- The loop `for rank, result in enumerate(vector_results, 1)` of
`_fuse_results`, started at rank `r`. -/
def fusePhase1 : Nat → List VPoint → List FusedEntry → List FusedEntry
  | _, [], d => d
  | r, p :: ps, d => fusePhase1 (r + 1) ps (dinsert (ventry p r) d)

/-- One iteration of the keyword loop of `_fuse_results`. -/
def kstep (r : Nat) (row : KRow) (d : List FusedEntry) : List FusedEntry :=
  if dcontains row.id d then daddScore row.id (1 / ((r : ℚ) + 60)) d
  else d ++ [kentry row r]

/-- The loop `for rank, row in enumerate(keyword_results, 1)` of
`_fuse_results`, started at rank `r`. -/
def fusePhase2 : Nat → List KRow → List FusedEntry → List FusedEntry
  | _, [], d => d
  | r, row :: rows, d => fusePhase2 (r + 1) rows (kstep r row d)

/-- The fully built `combined` dict of `_fuse_results`. -/
def fusedDict (v : List VPoint) (k : List KRow) : List FusedEntry :=
  fusePhase2 1 k (fusePhase1 1 v [])

/-- `QdrantManager._fuse_results`: sort the dict values by descending score
and keep the first `SIMILARITY_TOP_K`. -/
def fuse_results (v : List VPoint) (k : List KRow) : List FusedEntry :=
  (ssort FusedEntry.score (fusedDict v k)).take Config.SIMILARITY_TOP_K

/-- The total RRF contribution of the vector list to chunk `id`, ranks
starting at `r`: the sum of `1/(rank+60)` over the occurrences of `id`. -/
def vScore : Nat → List VPoint → String → ℚ
  | _, [], _ => 0
  | r, p :: ps, id =>
      (if p.id = id then 1 / ((r : ℚ) + 60) else 0) + vScore (r + 1) ps id

/-- The total RRF contribution of the keyword list to chunk `id`. -/
def kScore : Nat → List KRow → String → ℚ
  | _, [], _ => 0
  | r, row :: rows, id =>
      (if row.id = id then 1 / ((r : ℚ) + 60) else 0) + kScore (r + 1) rows id

/-- The Reciprocal Rank Fusion score of chunk `id`: the sum of `1/(rank+60)`
over the ranked lists in which it appears. -/
def rrfScore (v : List VPoint) (k : List KRow) (id : String) : ℚ :=
  vScore 1 v id + kScore 1 k id

/-! ### Hybrid search (vector_store.py)

`VectorStore.hybrid_search` queries the vector backend; only when it yields
fewer than 5 hits does it also query the keyword backend and merge the two
lists with `_combine_results`; it then optionally filters by accessible
documents and returns the first 8 results.  The two backends are modelled as
`Except`-valued parameters (any exception inside the `try` makes the whole
call return `[]`).

Results are Python dicts; a `SearchResult` models one with every key
optional.  The keyword backend returns sqlite tuples, not dicts, so the two
shapes are kept apart by `CombItem`, letting the `isinstance(result, dict)`
test of `_combine_results` be translated literally. -/

structure SPayload where
  text : Option String := none
  pdf_name : Option String := none
  page : Option Nat := none
deriving Repr, DecidableEq

structure SMeta where
  source : Option String := none
deriving Repr, DecidableEq

structure SearchResult where
  id : Option String := none
  text : Option String := none
  payload : Option SPayload := none
  metadata : Option SMeta := none
  score : Option ℚ := none
deriving Repr, DecidableEq

/-- An element of the lists handed to `_combine_results`: a result dict or a
sqlite row (tuple). -/
inductive CombItem : Type
  | dict (r : SearchResult)
  | row (r : KRow)
deriving Repr, DecidableEq

/-- `result['score'] = result.get('score', default)`. -/
def setScore (default : ℚ) (r : SearchResult) : SearchResult :=
  { r with score := some (r.score.getD default) }

/-- `x.get('score', 0)`, the sort key of `_combine_results`. -/
def getScore (r : SearchResult) : ℚ :=
  r.score.getD 0

/-- The dedup key of `_combine_results`:
`result.get('text', '') or result.get('payload', {}).get('text', '')`. -/
def content (r : SearchResult) : String :=
  let a := r.text.getD ""
  if a = "" then (r.payload.bind SPayload.text).getD "" else a

/-- The first two loops of `_combine_results`: semantic dicts get default
score 0.8, keyword dicts get default score 0.6, non-dict items are skipped
by the `isinstance(result, dict)` test. -/
def combinedPool (semantic keyword : List CombItem) : List SearchResult :=
  (semantic.filterMap (fun item =>
      match item with
      | .dict r => some (setScore (4/5) r)
      | .row _ => none)) ++
  (keyword.filterMap (fun item =>
      match item with
      | .dict r => some (setScore (3/5) r)
      | .row _ => none))

/-- The dedup loop of `_combine_results`: keep the first occurrence of each
content key (`seen` is the set of keys already kept). -/
def dedupLoop (seen : List String) : List SearchResult → List SearchResult
  | [] => []
  | r :: rs =>
      if content r ∈ seen then dedupLoop seen rs
      else r :: dedupLoop (content r :: seen) rs

/-- `VectorStore._combine_results`. -/
def combine_results (semantic keyword : List CombItem) : List SearchResult :=
  ssort getScore (dedupLoop [] (combinedPool semantic keyword))

/-- Document-name extraction of `_filter_by_accessible_docs`:
`result['payload']['pdf_name']` when both keys exist, else
`result['metadata']['source']` when both keys exist. -/
def docNameV (r : SearchResult) : Option String :=
  match r.payload.bind SPayload.pdf_name with
  | some d => some d
  | none => r.metadata.bind SMeta.source

/-- `if doc_name and doc_name in accessible_docs`: the extracted name is
present, non-empty (Python truthiness) and in the permitted list. -/
def truthyIn (dn : Option String) (docs : List String) : Bool :=
  match dn with
  | some d => d ≠ "" && d ∈ docs
  | none => false

/-- `VectorStore._filter_by_accessible_docs`; an empty permitted list is
falsy, so it returns the input unchanged. -/
def filter_by_accessible_docs (results : List SearchResult)
    (accessible : List String) : List SearchResult :=
  if accessible = [] then results
  else results.filter (fun r => truthyIn (docNameV r) accessible)

/-- The `if accessible_docs is not None` step of `hybrid_search`. -/
def applyAccessFilter (accessible : Option (List String))
    (results : List SearchResult) : List SearchResult :=
  match accessible with
  | none => results
  | some docs => filter_by_accessible_docs results docs

/-- `VectorStore.hybrid_search`.  `semRes` is the outcome of
`qdrant.search(query, limit=10)` and `kwRes` the outcome of
`keyword_db.search(keywords, limit=5)` (only consulted when fewer than 5
semantic hits); `.error` means the call raised, which the surrounding
`try/except` turns into `[]`. -/
def hybrid_search (semRes : Except Unit (List SearchResult))
    (kwRes : Except Unit (List KRow))
    (accessible : Option (List String)) : List SearchResult :=
  match semRes with
  | .error _ => []
  | .ok sem =>
      if sem.length < 5 then
        match kwRes with
        | .error _ => []
        | .ok kw =>
            (applyAccessFilter accessible
              (combine_results (sem.map CombItem.dict)
                (kw.map CombItem.row))).take 8
      else (applyAccessFilter accessible sem).take 8

/-! ### Embedding generation with cache (vector_store.py)

`VectorStore._generate_embeddings` walks the chunks, takes cached vectors
for cached chunk ids and collects the remaining texts in `texts_to_embed`
together with a dict `chunks_to_embed_map : text -> chunk_id`; it then
encodes the missing texts in one batch and reads every chunk id back from
`embeddings_map` (a missing id raises `KeyError`, modelled by `none`).
The embedding type `E` and the model `encode` are parameters. -/

structure EChunk where
  text : String
  chunk_id : String
deriving Repr, DecidableEq

/-- Lookup in a Python dict modelled as an association list. -/
def alookup {α : Type} : List (String × α) → String → Option α
  | [], _ => none
  | (k, v) :: m, key => if k = key then some v else alookup m key

/-- Python `d[k] = v`: overwrite in place, else append. -/
def adset {α : Type} : List (String × α) → String → α → List (String × α)
  | [], k, v => [(k, v)]
  | (k0, v0) :: m, k, v =>
      if k0 = k then (k, v) :: m else (k0, v0) :: adset m k v

/-- The cached entries put into `embeddings_map` by the first loop of
`_generate_embeddings`. -/
def cachedPhase {E : Type} (cache : List (String × E))
    (chunks : List EChunk) : List (String × E) :=
  chunks.foldl (fun em c =>
    match alookup cache c.chunk_id with
    | some v => adset em c.chunk_id v
    | none => em) []

/-- `texts_to_embed`: the texts of the chunks whose id is not cached, in
input order. -/
def texts_to_embed {E : Type} (cache : List (String × E))
    (chunks : List EChunk) : List String :=
  (chunks.filter (fun c => (alookup cache c.chunk_id).isNone)).map EChunk.text

/-- `chunks_to_embed_map`: the dict mapping each uncached text to a chunk id
(the last uncached chunk with that text wins). -/
def chunksToEmbedMap {E : Type} (cache : List (String × E))
    (chunks : List EChunk) : List (String × String) :=
  chunks.foldl (fun m c =>
    if (alookup cache c.chunk_id).isNone then adset m c.text c.chunk_id
    else m) []

/-- The final list comprehension of `_generate_embeddings`; a chunk id
absent from `embeddings_map` raises `KeyError` (`none`). -/
def readBack {E : Type} (em : List (String × E)) : List EChunk → Option (List E)
  | [] => some []
  | c :: cs =>
      match alookup em c.chunk_id with
      | some v =>
          match readBack em cs with
          | some vs => some (v :: vs)
          | none => none
      | none => none

/-- `VectorStore._generate_embeddings`. -/
def generate_embeddings {E : Type} (encode : List String → List E)
    (cache : List (String × E)) (chunks : List EChunk) : Option (List E) :=
  let em := cachedPhase cache chunks
  let tte := texts_to_embed cache chunks
  let cmap := chunksToEmbedMap cache chunks
  let em2 :=
    if tte = [] then em
    else (tte.zip (encode tte)).foldl (fun em p =>
      match alookup cmap p.1 with
      | some cid => adset em cid p.2
      | none => em) em
  readBack em2 chunks

/-! ### RAG chatbot (chatbot.py) -/

structure RagChunk where
  text : String
  metadata : Option SMeta := none
  pdf_name : Option String := none
deriving Repr, DecidableEq

/-- Document-name extraction of `Chatbot._filter_chunks_by_access`:
`chunk['metadata']['source']` when both keys exist, else
`chunk['pdf_name']` when present. -/
def docNameC (c : RagChunk) : Option String :=
  match c.metadata.bind SMeta.source with
  | some d => some d
  | none => c.pdf_name

/-- `Chatbot._filter_chunks_by_access`; an empty permitted list is falsy,
so it returns the input unchanged. -/
def filter_chunks_by_access (chunks : List RagChunk)
    (accessible : List String) : List RagChunk :=
  if accessible = [] then chunks
  else chunks.filter (fun c => truthyIn (docNameC c) accessible)

/-- The response dict of `ollama.generate`. -/
structure OllamaResp where
  response : Option String := none

/-- `Config.RAG_PROMPT_TEMPLATE.format(context=..., question=...)`. -/
def ragPrompt (context question : String) : String :=
  "\n    **Task:** You are an intelligent assistant. Use the following context from the user\x27s documents to answer their question.\n\n    **Context from Documents:**\n    ---\n    " ++
  context ++
  "\n    ---\n\n    **User\x27s Question:**\n    " ++
  question ++
  "\n\n    **Instructions:**\n    1.  Base your answer strictly on the provided context.\n    2.  If the context does not contain the answer, state that you cannot find the information in the documents.\n    3.  Do not make up information or use external knowledge.\n    4.  Be concise and clear in your response.\n\n    **Answer:**\n    "

/-- `context[:800] + "..." if len(context) > 800 else context`. -/
def contextSummary (context : String) : String :=
  if 800 < context.length then context.take 800 ++ "..." else context

/-- `Chatbot._generate_fallback_response`. -/
def generate_fallback_response (query context : String) : String :=
  "Based on the available documents, here\x27s what I found regarding your question: \"" ++
  query ++ "\"\n\n" ++ contextSummary context ++
  "\n\nThis information is extracted directly from your documents. For more detailed AI-powered responses, please ensure Ollama is properly configured."

/-- The context string `"\n\n---\n\n".join(chunk['text'] for chunk in ...)`. -/
def contextStr (chunks : List RagChunk) : String :=
  String.intercalate "\n\n---\n\n" (chunks.map RagChunk.text)

/-- The tail of `Chatbot.generate_response` from context formatting on:
build the prompt, call the LLM (`ollama` is a parameter; `.error` means the
call raised) and fall back to `_generate_fallback_response` on failure. -/
def respondWithContext (ollama : String → Except Unit OllamaResp)
    (query : String) (chunks : List RagChunk) : String × List RagChunk :=
  let context := contextStr chunks
  let prompt := ragPrompt context query
  match ollama prompt with
  | .ok resp =>
      ((resp.response.getD "Sorry, I encountered an error.").trim, chunks)
  | .error _ => (generate_fallback_response query context, chunks)

/-- `Chatbot.generate_response`; `retrieved` is the outcome of
`vector_store.get_context_for_rag(query)`. -/
def generate_response (ollama : String → Except Unit OllamaResp)
    (query : String) (retrieved : List RagChunk)
    (accessible : Option (List String)) : String × List RagChunk :=
  if query = "" then ("Please ask a question.", [])
  else if retrieved = [] then
    ("I could not find any relevant information in your documents to answer this question.", [])
  else
    match accessible with
    | some docs =>
        let chunks := filter_chunks_by_access retrieved docs
        if chunks = [] then
          ("I could not find any relevant information in your accessible documents to answer this question.", [])
        else respondWithContext ollama query chunks
    | none => respondWithContext ollama query retrieved

/-! ### Lemmas about the stable descending sort -/

theorem sinsert_perm {α : Type} (key : α → ℚ) (a : α) (l : List α) :
    (sinsert key a l).Perm (a :: l) := by
  induction l with
  | nil => simp [sinsert]
  | cons b bs ih =>
      simp only [sinsert]
      split
      · exact List.Perm.refl _
      · exact (ih.cons b).trans (List.Perm.swap a b bs)

theorem ssort_perm {α : Type} (key : α → ℚ) (l : List α) :
    (ssort key l).Perm l := by
  induction l with
  | nil => simp [ssort]
  | cons a as ih => exact (sinsert_perm key a (ssort key as)).trans (ih.cons a)

theorem mem_ssort {α : Type} {key : α → ℚ} {a : α} {l : List α} :
    a ∈ ssort key l ↔ a ∈ l :=
  (ssort_perm key l).mem_iff

theorem sinsert_sorted {α : Type} {key : α → ℚ} {a : α} {l : List α}
    (h : l.Pairwise (fun x y => key y ≤ key x)) :
    (sinsert key a l).Pairwise (fun x y => key y ≤ key x) := by
  induction l with
  | nil => simp [sinsert]
  | cons b bs ih =>
      rcases List.pairwise_cons.mp h with ⟨hb, hbs⟩
      simp only [sinsert]
      split
      · refine List.pairwise_cons.mpr ⟨?_, h⟩
        intro x hx
        rcases List.mem_cons.mp hx with hx | hx
        · subst hx; assumption
        · exact le_trans (hb x hx) (by assumption)
      · refine List.pairwise_cons.mpr ⟨?_, ih hbs⟩
        intro x hx
        rcases List.mem_cons.mp ((sinsert_perm key a bs).mem_iff.mp hx) with hx | hx
        · subst hx; exact le_of_not_le (by assumption)
        · exact hb x hx

theorem ssort_sorted {α : Type} (key : α → ℚ) (l : List α) :
    (ssort key l).Pairwise (fun x y => key y ≤ key x) := by
  induction l with
  | nil => simp [ssort]
  | cons a as ih => exact sinsert_sorted ih

/-- Elements kept by `take` are related to elements removed by `drop` in a
pairwise-sorted list. -/
theorem pairwise_take_drop {α : Type} {R : α → α → Prop} {l : List α}
    (h : l.Pairwise R) (n : Nat) :
    ∀ a ∈ l.take n, ∀ b ∈ l.drop n, R a b := by
  have hsplit : (l.take n ++ l.drop n).Pairwise R := by
    rwa [List.take_append_drop]
  exact (List.pairwise_append.mp hsplit).2.2

/-! ### Lemmas about the access filters -/

theorem truthyIn_iff (dn : Option String) (docs : List String) :
    truthyIn dn docs = true ↔ ∃ d, dn = some d ∧ d ≠ "" ∧ d ∈ docs := by
  cases dn <;> simp [truthyIn]

/-- Claim C9: with the empty (falsy) permitted list, both access filters
return the input unchanged, so every result passes the filter regardless of
its source document. -/
theorem C9_empty_permitted_list (results : List SearchResult)
    (chunks : List RagChunk) :
    filter_by_accessible_docs results [] = results ∧
    filter_chunks_by_access chunks [] = chunks := by
  constructor
  · simp [filter_by_accessible_docs]
  · simp [filter_chunks_by_access]

/-- Claim C3 counterexample: the filter is claimed to drop exactly the
results whose source document is outside the permitted set, for every
permitted set.  With the empty permitted set a result whose document is not
in the set is kept, and with the permitted set containing only the empty
string a result whose document is in the set is dropped. -/
theorem C3_counterexample :
    (filter_by_accessible_docs
        [{ payload := some { pdf_name := some "a" } }] []
      = [{ payload := some { pdf_name := some "a" } }] ∧
      docNameV { payload := some { pdf_name := some "a" } } = some "a" ∧
      "a" ∉ ([] : List String)) ∧
    (filter_by_accessible_docs
        [{ payload := some { pdf_name := some "" } }] [""]
      = [] ∧
      docNameV { payload := some { pdf_name := some "" } } = some "" ∧
      "" ∈ [""]) := by
  refine ⟨⟨?_, ?_, ?_⟩, ⟨?_, ?_, ?_⟩⟩ <;> decide

/-- Claim C3 (amended): for every non-empty permitted set, both access
filters return a subsequence of the input; every kept element has a
non-empty extracted document name belonging to the set, and every input
element with a non-empty extracted document name in the set is kept. -/
theorem C3_access_filter (results : List SearchResult)
    (chunks : List RagChunk) (accessible : List String)
    (ha : accessible ≠ []) :
    (filter_by_accessible_docs results accessible).Sublist results ∧
    (∀ r ∈ filter_by_accessible_docs results accessible,
      ∃ d, docNameV r = some d ∧ d ≠ "" ∧ d ∈ accessible) ∧
    (∀ r ∈ results, ∀ d, docNameV r = some d → d ≠ "" → d ∈ accessible →
      r ∈ filter_by_accessible_docs results accessible) ∧
    (filter_chunks_by_access chunks accessible).Sublist chunks ∧
    (∀ c ∈ filter_chunks_by_access chunks accessible,
      ∃ d, docNameC c = some d ∧ d ≠ "" ∧ d ∈ accessible) ∧
    (∀ c ∈ chunks, ∀ d, docNameC c = some d → d ≠ "" → d ∈ accessible →
      c ∈ filter_chunks_by_access chunks accessible) := by
  rw [filter_by_accessible_docs, if_neg ha, filter_chunks_by_access, if_neg ha]
  refine ⟨List.filter_sublist _, ?_, ?_, List.filter_sublist _, ?_, ?_⟩
  · intro r hr
    exact (truthyIn_iff _ _).mp (List.mem_filter.mp hr).2
  · intro r hr d hd hne hmem
    exact List.mem_filter.mpr ⟨hr, (truthyIn_iff _ _).mpr ⟨d, hd, hne, hmem⟩⟩
  · intro c hc
    exact (truthyIn_iff _ _).mp (List.mem_filter.mp hc).2
  · intro c hc d hd hne hmem
    exact List.mem_filter.mpr ⟨hc, (truthyIn_iff _ _).mpr ⟨d, hd, hne, hmem⟩⟩

/-- Claim C3 witness: the amended filter theorem applied at a concrete
result, chunk and permitted set. -/
theorem C3_witness :
    (filter_by_accessible_docs
        [{ payload := some { pdf_name := some "a" } }] ["a"]).Sublist
      [{ payload := some { pdf_name := some "a" } }] ∧
    (∀ c ∈ filter_chunks_by_access [{ text := "t", pdf_name := some "a" }] ["a"],
      ∃ d, docNameC c = some d ∧ d ≠ "" ∧ d ∈ ["a"]) :=
  ⟨(C3_access_filter [{ payload := some { pdf_name := some "a" } }]
      [{ text := "t", pdf_name := some "a" }] ["a"] (by decide)).1,
   (C3_access_filter [{ payload := some { pdf_name := some "a" } }]
      [{ text := "t", pdf_name := some "a" }] ["a"] (by decide)).2.2.2.2.1⟩

/-! ### The chatbot fallback path -/

/-- Claim C6: when the LLM call raises, `generate_response` does not
propagate the exception: it returns the fallback answer built from the raw
retrieved context (truncated to 800 characters when longer) together with
the retrieved (access-filtered) chunks. -/
theorem C6_llm_fallback (ollama : String → Except Unit OllamaResp)
    (query : String) (retrieved chunks : List RagChunk)
    (accessible : Option (List String))
    (hq : query ≠ "") (hr : retrieved ≠ [])
    (hc : chunks = (match accessible with
      | none => retrieved
      | some docs => filter_chunks_by_access retrieved docs))
    (hne : chunks ≠ [])
    (herr : ollama (ragPrompt (contextStr chunks) query) = .error ()) :
    generate_response ollama query retrieved accessible
      = (generate_fallback_response query (contextStr chunks), chunks) ∧
    (800 < (contextStr chunks).length →
      generate_fallback_response query (contextStr chunks)
        = "Based on the available documents, here\x27s what I found regarding your question: \"" ++
          query ++ "\"\n\n" ++ ((contextStr chunks).take 800 ++ "...") ++
          "\n\nThis information is extracted directly from your documents. For more detailed AI-powered responses, please ensure Ollama is properly configured.") ∧
    ((contextStr chunks).length ≤ 800 →
      generate_fallback_response query (contextStr chunks)
        = "Based on the available documents, here\x27s what I found regarding your question: \"" ++
          query ++ "\"\n\n" ++ contextStr chunks ++
          "\n\nThis information is extracted directly from your documents. For more detailed AI-powered responses, please ensure Ollama is properly configured.") := by
  refine ⟨?_, ?_, ?_⟩
  · cases accessible with
    | none =>
        simp only at hc
        subst hc
        simp [generate_response, hq, hr, respondWithContext, herr]
    | some docs =>
        simp only at hc
        subst hc
        simp [generate_response, hq, hr, hne, respondWithContext, herr]
  · intro hlong
    rw [generate_fallback_response, contextSummary, if_pos hlong]
  · intro hshort
    rw [generate_fallback_response, contextSummary, if_neg (Nat.not_lt.mpr hshort)]

/-- Claim C6 witness: the fallback theorem applied at a concrete query,
context and always-raising LLM. -/
theorem C6_witness :
    generate_response (fun _ => .error ()) "q" [{ text := "hello" }] none
      = (generate_fallback_response "q" (contextStr [{ text := "hello" }]),
         [{ text := "hello" }]) :=
  (C6_llm_fallback (fun _ => .error ()) "q" [{ text := "hello" }]
    [{ text := "hello" }] none (by decide) (by decide) rfl (by decide) rfl).1

/-! ### Lemmas about the dedup loop of `_combine_results` -/

theorem dedupLoop_sublist (seen : List String) (l : List SearchResult) :
    (dedupLoop seen l).Sublist l := by
  induction l generalizing seen with
  | nil => simp [dedupLoop]
  | cons r rs ih =>
      rw [dedupLoop]
      split
      · exact (ih seen).cons r
      · exact (ih (content r :: seen)).cons₂ r

theorem mem_dedupLoop {seen : List String} {l : List SearchResult}
    {r : SearchResult} (h : r ∈ dedupLoop seen l) :
    r ∈ l ∧ content r ∉ seen := by
  induction l generalizing seen with
  | nil => simp [dedupLoop] at h
  | cons r0 rs ih =>
      rw [dedupLoop] at h
      split at h
      · rcases ih h with ⟨h1, h2⟩
        exact ⟨List.mem_cons_of_mem r0 h1, h2⟩
      · rcases List.mem_cons.mp h with h | h
        · subst h; exact ⟨List.mem_cons_self _ _, by assumption⟩
        · rcases ih h with ⟨h1, h2⟩
          refine ⟨List.mem_cons_of_mem r0 h1, fun hmem => h2 ?_⟩
          exact List.mem_cons_of_mem _ hmem

theorem dedupLoop_pairwise (seen : List String) (l : List SearchResult) :
    (dedupLoop seen l).Pairwise (fun a b => content a ≠ content b) := by
  induction l generalizing seen with
  | nil => simp [dedupLoop]
  | cons r0 rs ih =>
      rw [dedupLoop]
      split
      · exact ih seen
      · refine List.pairwise_cons.mpr ⟨?_, ih (content r0 :: seen)⟩
        intro x hx
        have := (mem_dedupLoop hx).2
        intro hcontra
        exact this (hcontra ▸ List.mem_cons_self _ _)

theorem dedupLoop_find? {seen : List String} {l : List SearchResult}
    {r : SearchResult} (h : r ∈ dedupLoop seen l) :
    l.find? (fun x => content x == content r) = some r := by
  induction l generalizing seen with
  | nil => simp [dedupLoop] at h
  | cons r0 rs ih =>
      rw [dedupLoop] at h
      split at h
      · have hne : content r0 ≠ content r := by
          intro hcontra
          exact (mem_dedupLoop h).2 (hcontra ▸ (by assumption))
        rw [List.find?_cons_of_neg _ (by simpa using hne)]
        exact ih h
      · rcases List.mem_cons.mp h with h | h
        · subst h
          rw [List.find?_cons_of_pos _ (by simp)]
        · have hne : content r0 ≠ content r := by
            intro hcontra
            exact (mem_dedupLoop h).2 (hcontra ▸ List.mem_cons_self _ _)
          rw [List.find?_cons_of_neg _ (by simpa using hne)]
          exact ih h

theorem dedupLoop_covers (seen : List String) (l : List SearchResult) :
    ∀ x ∈ l, content x ∈ seen ∨
      ∃ r ∈ dedupLoop seen l, content r = content x := by
  induction l generalizing seen with
  | nil => simp
  | cons r0 rs ih =>
      intro x hx
      rw [dedupLoop]
      by_cases h0 : content r0 ∈ seen
      · rw [if_pos h0]
        rcases List.mem_cons.mp hx with hx | hx
        · subst hx; exact Or.inl h0
        · exact ih seen x hx
      · rw [if_neg h0]
        rcases List.mem_cons.mp hx with hx | hx
        · exact Or.inr ⟨r0, List.mem_cons_self _ _, by rw [hx]⟩
        · rcases ih (content r0 :: seen) x hx with hmem | ⟨r, hr, hcr⟩
          · rcases List.mem_cons.mp hmem with hmem | hmem
            · exact Or.inr ⟨r0, List.mem_cons_self _ _, hmem.symm⟩
            · exact Or.inl hmem
          · exact Or.inr ⟨r, List.mem_cons_of_mem r0 hr, hcr⟩

/-- Claim C10: the list returned by `_combine_results` is sorted by
non-increasing score, contains no two elements with the same content key,
keeps the first occurrence of each content key from the score-assigned
concatenation (so a semantic result suppresses a later keyword result with
identical text), every element originates from one of the two input lists
with missing scores defaulted to 0.8 (semantic) or 0.6 (keyword), and every
input content key is represented. -/
theorem C10_combine_results (semantic keyword : List CombItem) :
    (combine_results semantic keyword).Pairwise
      (fun a b => getScore b ≤ getScore a) ∧
    (combine_results semantic keyword).Pairwise
      (fun a b => content a ≠ content b) ∧
    (∀ r ∈ combine_results semantic keyword,
      (∃ d, CombItem.dict d ∈ semantic ∧ r = setScore (4/5) d) ∨
      (∃ d, CombItem.dict d ∈ keyword ∧ r = setScore (3/5) d)) ∧
    (∀ r ∈ combine_results semantic keyword,
      (combinedPool semantic keyword).find?
        (fun x => content x == content r) = some r) ∧
    (∀ x ∈ combinedPool semantic keyword,
      ∃ r ∈ combine_results semantic keyword, content r = content x) := by
  refine ⟨ssort_sorted _ _, ?_, ?_, ?_, ?_⟩
  · exact ((ssort_perm getScore _).pairwise_iff
      (fun h => h.symm)).mpr (dedupLoop_pairwise [] _)
  · intro r hr
    have hpool : r ∈ combinedPool semantic keyword :=
      (mem_dedupLoop (mem_ssort.mp hr)).1
    rcases List.mem_append.mp hpool with hmem | hmem
    · rcases List.mem_filterMap.mp hmem with ⟨item, hitem, heq⟩
      cases item with
      | dict d =>
          exact Or.inl ⟨d, hitem, by simpa using heq.symm⟩
      | row k => simp at heq
    · rcases List.mem_filterMap.mp hmem with ⟨item, hitem, heq⟩
      cases item with
      | dict d =>
          exact Or.inr ⟨d, hitem, by simpa using heq.symm⟩
      | row k => simp at heq
  · intro r hr
    exact dedupLoop_find? (mem_ssort.mp hr)
  · intro x hx
    rcases dedupLoop_covers [] _ x hx with hmem | ⟨r, hr, hcr⟩
    · simp at hmem
    · exact ⟨r, mem_ssort.mpr hr, hcr⟩

/-! ### Lemmas about `hybrid_search` -/

theorem hybrid_search_ok (sem : List SearchResult) (kw : List KRow)
    (accessible : Option (List String)) :
    hybrid_search (.ok sem) (.ok kw) accessible =
      (applyAccessFilter accessible
        (if sem.length < 5 then
          combine_results (sem.map CombItem.dict) (kw.map CombItem.row)
        else sem)).take 8 := by
  by_cases h : sem.length < 5 <;> simp [hybrid_search, h]

theorem keyword_rows_filterMap_nil (kw : List KRow) :
    (kw.map CombItem.row).filterMap (fun item =>
      match item with
      | CombItem.dict r => some (setScore (3/5) r)
      | CombItem.row _ => none) = [] := by
  induction kw with
  | nil => rfl
  | cons k ks ih => simpa using ih

/-- The keyword rows handed to `_combine_results` are sqlite tuples, so the
`isinstance(result, dict)` test drops every one of them. -/
theorem combine_results_drops_rows (s : List CombItem) (kw : List KRow) :
    combine_results s (kw.map CombItem.row) = combine_results s [] := by
  rw [combine_results, combine_results, combinedPool, combinedPool,
    keyword_rows_filterMap_nil]
  rfl

/-- Claim C8: `hybrid_search` is total and bounded: an exception in a used
backend yields `[]`, and otherwise the result is the first 8 elements of
the combined, access-filtered list, so it never holds more than 8
results. -/
theorem C8_hybrid_total (semRes : Except Unit (List SearchResult))
    (kwRes : Except Unit (List KRow)) (accessible : Option (List String))
    (sem : List SearchResult) :
    hybrid_search (.error ()) kwRes accessible = [] ∧
    (sem.length < 5 → hybrid_search (.ok sem) (.error ()) accessible = []) ∧
    (hybrid_search semRes kwRes accessible).length ≤ 8 ∧
    (∀ kw, hybrid_search (.ok sem) (.ok kw) accessible =
      (applyAccessFilter accessible
        (if sem.length < 5 then
          combine_results (sem.map CombItem.dict) (kw.map CombItem.row)
        else sem)).take 8) := by
  refine ⟨rfl, ?_, ?_, fun kw => hybrid_search_ok sem kw accessible⟩
  · intro h
    simp [hybrid_search, h]
  · cases semRes with
    | error e => simp [hybrid_search]
    | ok s =>
        cases kwRes with
        | error e =>
            by_cases h : s.length < 5 <;>
              simp [hybrid_search, h, List.length_take]
        | ok kw =>
            rw [hybrid_search_ok]
            simp [List.length_take]

/-- Claim C8 witness: the totality theorem applied at concrete backend
outcomes, discharging the length hypothesis. -/
theorem C8_witness :
    hybrid_search (Except.ok []) (Except.error ()) none = [] :=
  (C8_hybrid_total (Except.ok []) (Except.error ()) none []).2.1 (by decide)

/-- Claim C1 counterexample: `VectorStore.hybrid_search` is claimed to merge
semantic and keyword results by Reciprocal Rank Fusion, calling both
backends on every query.  With five semantic hits, the keyword outcome is
irrelevant to the result (the keyword backend is not consulted); with one
semantic hit and one keyword row, the keyword row is absent from the output
(it is a sqlite tuple, dropped by the `isinstance` test), whereas the RRF
fusion of the same two lists (as implemented in
`QdrantManager._fuse_results`) retains both chunks. -/
theorem C1_counterexample :
    (hybrid_search
        (.ok [{ id := some "s1" }, { id := some "s2" }, { id := some "s3" },
              { id := some "s4" }, { id := some "s5" }])
        (.ok [{ id := "k1", text := "kw text", pdf_name := "kd", page := 1 }])
        none
      = hybrid_search
        (.ok [{ id := some "s1" }, { id := some "s2" }, { id := some "s3" },
              { id := some "s4" }, { id := some "s5" }])
        (.ok []) none) ∧
    (hybrid_search
        (.ok [{ id := some "s0", payload := some { text := some "sem text" } }])
        (.ok [{ id := "k1", text := "kw text", pdf_name := "kd", page := 1 }])
        none
      = [setScore (4/5)
          { id := some "s0", payload := some { text := some "sem text" } }]) ∧
    ((fuse_results
        [{ id := "s0", payload := { text := "sem text", pdf_name := "sd", page := 1 } }]
        [{ id := "k1", text := "kw text", pdf_name := "kd", page := 1 }]).map
          FusedEntry.id
      = ["s0", "k1"]) := by
  refine ⟨rfl, rfl, ?_⟩
  norm_num [fuse_results, fusedDict, fusePhase1, fusePhase2, kstep, dcontains,
    dinsert, ventry, kentry, ssort, sinsert, Config.SIMILARITY_TOP_K]

/-- Claim C1 (amended): `hybrid_search` returns the top 8 of the semantic
results: with 5 or more semantic hits the keyword backend is not consulted
and the (access-filtered) semantic list is truncated; with fewer than 5 the
keyword backend is consulted but its tuple rows are dropped by
`_combine_results`, so the combined list is the semantic dicts alone
(missing scores defaulted, deduplicated by content, sorted by descending
score) — no Reciprocal Rank Fusion is involved; an exception in a used
backend yields `[]`. -/
theorem C1_hybrid_search_amended (sem : List SearchResult)
    (kw kw2 : List KRow) (accessible : Option (List String)) :
    (hybrid_search (.error ()) (.ok kw) accessible = []) ∧
    (sem.length < 5 →
      hybrid_search (.ok sem) (.error ()) accessible = []) ∧
    (5 ≤ sem.length →
      hybrid_search (.ok sem) (.ok kw) accessible
          = (applyAccessFilter accessible sem).take 8 ∧
      hybrid_search (.ok sem) (.ok kw) accessible
          = hybrid_search (.ok sem) (.ok kw2) accessible) ∧
    (sem.length < 5 →
      hybrid_search (.ok sem) (.ok kw) accessible
        = (applyAccessFilter accessible
            (combine_results (sem.map CombItem.dict) [])).take 8) ∧
    (combine_results (sem.map CombItem.dict) (kw.map CombItem.row)
        = combine_results (sem.map CombItem.dict) []) := by
  refine ⟨rfl, ?_, ?_, ?_, combine_results_drops_rows _ kw⟩
  · intro h
    simp [hybrid_search, h]
  · intro h
    have hnot : ¬ sem.length < 5 := Nat.not_lt.mpr h
    constructor
    · rw [hybrid_search_ok, if_neg hnot]
    · rw [hybrid_search_ok, hybrid_search_ok, if_neg hnot, if_neg hnot]
  · intro h
    rw [hybrid_search_ok, if_pos h, combine_results_drops_rows]

/-- Claim C1 witness: the amended characterization applied at five concrete
semantic hits and two different keyword outcomes. -/
theorem C1_witness :
    hybrid_search
        (.ok [{ id := some "s1" }, { id := some "s2" }, { id := some "s3" },
              { id := some "s4" }, { id := some "s5" }])
        (.ok [{ id := "k1", text := "kw text", pdf_name := "kd", page := 1 }])
        none
      = hybrid_search
        (.ok [{ id := some "s1" }, { id := some "s2" }, { id := some "s3" },
              { id := some "s4" }, { id := some "s5" }])
        (.ok []) none :=
  ((C1_hybrid_search_amended
      [{ id := some "s1" }, { id := some "s2" }, { id := some "s3" },
       { id := some "s4" }, { id := some "s5" }]
      [{ id := "k1", text := "kw text", pdf_name := "kd", page := 1 }]
      [] none).2.2.1 (by decide)).2

/-! ### Lemmas about sentence chunking -/

theorem sGroups_flatten (l : List String) : (sGroups l).flatten = l := by
  induction l using sGroups.induct with
  | case1 => rw [sGroups, dif_pos rfl]; rfl
  | case2 x hx ih =>
      rw [sGroups, dif_neg hx]
      simp [ih, List.take_append_drop]

theorem chunkFromSentences_texts (md5 : String → String) (name : String)
    (page : Nat) (l : List String) :
    ∀ off, (chunkFromSentences md5 name page off l).map Chunk.text
      = (sGroups l).map (String.intercalate " ") := by
  induction l using sGroups.induct with
  | case1 =>
      intro off
      rw [chunkFromSentences, dif_pos rfl, sGroups, dif_pos rfl]
      rfl
  | case2 x hx ih =>
      intro off
      rw [chunkFromSentences, dif_neg hx, sGroups, dif_neg hx]
      simp [ih]

theorem sGroups_getElem :
    ∀ (j : Nat) (l g : List String),
      (sGroups l)[j]? = some g →
      g = (l.drop (Config.SENTENCES_PER_CHUNK * j)).take
            Config.SENTENCES_PER_CHUNK := by
  intro j
  induction j with
  | zero =>
      intro l g hg
      by_cases hl : l = []
      · rw [sGroups, dif_pos hl] at hg; simp at hg
      · rw [sGroups, dif_neg hl, List.getElem?_cons_zero] at hg
        cases hg
        simp
  | succ j ih =>
      intro l g hg
      by_cases hl : l = []
      · rw [sGroups, dif_pos hl] at hg; simp at hg
      · rw [sGroups, dif_neg hl, List.getElem?_cons_succ] at hg
        have h2 := ih _ _ hg
        subst h2
        rw [List.drop_drop]
        have harith : Config.SENTENCES_PER_CHUNK +
            Config.SENTENCES_PER_CHUNK * j =
            Config.SENTENCES_PER_CHUNK * (j + 1) := by ring
        rw [harith]

theorem sGroups_mem (l : List String) :
    ∀ g ∈ sGroups l, g ≠ [] ∧ g.length ≤ Config.SENTENCES_PER_CHUNK := by
  induction l using sGroups.induct with
  | case1 =>
      rw [sGroups, dif_pos rfl]
      intro g hg
      simp at hg
  | case2 x hx ih =>
      rw [sGroups, dif_neg hx]
      intro g hg
      rcases List.mem_cons.mp hg with hg | hg
      · subst hg
        refine ⟨?_, List.length_take_le _ _⟩
        rw [Ne, List.take_eq_nil_iff]
        push_neg
        exact ⟨by simp [Config.SENTENCES_PER_CHUNK], hx⟩
      · exact ih g hg

theorem sGroups_full_length :
    ∀ (j : Nat) (l g : List String),
      j + 1 < (sGroups l).length → (sGroups l)[j]? = some g →
      g.length = Config.SENTENCES_PER_CHUNK := by
  intro j
  induction j with
  | zero =>
      intro l g hlen hg
      by_cases hl : l = []
      · rw [sGroups, dif_pos hl] at hlen; simp at hlen
      · rw [sGroups, dif_neg hl] at hlen hg
        rw [List.getElem?_cons_zero] at hg
        cases hg
        rw [List.length_cons] at hlen
        have hne : sGroups (l.drop Config.SENTENCES_PER_CHUNK) ≠ [] := by
          intro hcon
          rw [hcon] at hlen
          simp at hlen
        have hdne : l.drop Config.SENTENCES_PER_CHUNK ≠ [] := by
          intro hcon
          rw [sGroups, dif_pos hcon] at hne
          exact hne rfl
        have hlenl : Config.SENTENCES_PER_CHUNK < l.length := by
          by_contra hcon
          push_neg at hcon
          exact hdne (List.drop_eq_nil_of_le hcon)
        rw [List.length_take]
        omega
  | succ j ih =>
      intro l g hlen hg
      by_cases hl : l = []
      · rw [sGroups, dif_pos hl] at hlen; simp at hlen
      · rw [sGroups, dif_neg hl] at hlen hg
        rw [List.getElem?_cons_succ] at hg
        rw [List.length_cons] at hlen
        exact ih _ _ (by omega) hg

theorem chunkFromSentences_getElem (md5 : String → String) (name : String)
    (page : Nat) :
    ∀ (j : Nat) (l : List String) (off : Nat) (c : Chunk),
      (chunkFromSentences md5 name page off l)[j]? = some c →
      c.metadata.pdf_name = name ∧ c.metadata.page = page ∧
      c.metadata.chunk_id
        = md5 (idString name page (off + Config.SENTENCES_PER_CHUNK * j)) := by
  intro j
  induction j with
  | zero =>
      intro l off c hc
      by_cases hl : l = []
      · rw [chunkFromSentences, dif_pos hl] at hc; simp at hc
      · rw [chunkFromSentences, dif_neg hl, List.getElem?_cons_zero] at hc
        cases hc
        refine ⟨rfl, rfl, ?_⟩
        simp
  | succ j ih =>
      intro l off c hc
      by_cases hl : l = []
      · rw [chunkFromSentences, dif_pos hl] at hc; simp at hc
      · rw [chunkFromSentences, dif_neg hl, List.getElem?_cons_succ] at hc
        have h2 := ih _ _ _ hc
        refine ⟨h2.1, h2.2.1, ?_⟩
        rw [h2.2.2]
        have harith : off + Config.SENTENCES_PER_CHUNK +
            Config.SENTENCES_PER_CHUNK * j =
            off + Config.SENTENCES_PER_CHUNK * (j + 1) := by ring
        rw [harith]

theorem chunkFromWords_getElem (md5 : String → String) (name : String)
    (page : Nat) :
    ∀ (j : Nat) (ws : List String) (off : Nat) (c : Chunk),
      (chunkFromWords md5 name page off ws)[j]? = some c →
      c.metadata.pdf_name = name ∧ c.metadata.page = page ∧
      c.metadata.chunk_id
        = md5 (idString name page (off +
            Config.MIN_SENTENCE_LENGTH * Config.SENTENCES_PER_CHUNK * j)) := by
  intro j
  induction j with
  | zero =>
      intro ws off c hc
      by_cases hl : ws = []
      · rw [chunkFromWords, dif_pos hl] at hc; simp at hc
      · rw [chunkFromWords, dif_neg hl, List.getElem?_cons_zero] at hc
        cases hc
        refine ⟨rfl, rfl, ?_⟩
        simp
  | succ j ih =>
      intro ws off c hc
      by_cases hl : ws = []
      · rw [chunkFromWords, dif_pos hl] at hc; simp at hc
      · rw [chunkFromWords, dif_neg hl, List.getElem?_cons_succ] at hc
        have h2 := ih _ _ _ hc
        refine ⟨h2.1, h2.2.1, ?_⟩
        rw [h2.2.2]
        have harith : off +
            Config.MIN_SENTENCE_LENGTH * Config.SENTENCES_PER_CHUNK +
            Config.MIN_SENTENCE_LENGTH * Config.SENTENCES_PER_CHUNK * j =
            off + Config.MIN_SENTENCE_LENGTH * Config.SENTENCES_PER_CHUNK *
              (j + 1) := by ring
        rw [harith]

/-- Claim C4: every chunk identifier produced by `chunk_text` is the hash
of `f"{pdf_name}_{page}_{offset}"` for the chunk loop offset, so it depends
only on the document name, page number and chunk offset and not on the
chunk text; in particular two pages with the same name and page number
yield identical identifiers at every common chunk position. -/
theorem C4_chunk_ids (st : String → List String) (md5 : String → String)
    (pages : List PageText) :
    (∀ c ∈ chunk_text st md5 pages, ∃ pg ∈ pages, ∃ off,
      c.metadata.pdf_name = pg.pdf_name ∧ c.metadata.page = pg.page ∧
      c.metadata.chunk_id = md5 (idString pg.pdf_name pg.page off)) ∧
    (∀ (name : String) (page : Nat) (j : Nat) (l : List String) (off : Nat)
        (c : Chunk),
      (chunkFromSentences md5 name page off l)[j]? = some c →
      c.metadata.chunk_id
        = md5 (idString name page (off + Config.SENTENCES_PER_CHUNK * j))) ∧
    (∀ (name : String) (page : Nat) (j : Nat) (ws : List String) (off : Nat)
        (c : Chunk),
      (chunkFromWords md5 name page off ws)[j]? = some c →
      c.metadata.chunk_id
        = md5 (idString name page (off +
            Config.MIN_SENTENCE_LENGTH * Config.SENTENCES_PER_CHUNK * j))) ∧
    (∀ (name : String) (page : Nat) (l m : List String) (j : Nat)
        (c c2 : Chunk),
      (chunkFromSentences md5 name page 0 l)[j]? = some c →
      (chunkFromSentences md5 name page 0 m)[j]? = some c2 →
      c.metadata.chunk_id = c2.metadata.chunk_id) := by
  refine ⟨?_,
    fun name page j l off c hc =>
      (chunkFromSentences_getElem md5 name page j l off c hc).2.2,
    fun name page j ws off c hc =>
      (chunkFromWords_getElem md5 name page j ws off c hc).2.2,
    ?_⟩
  · intro c hc
    rcases List.mem_flatMap.mp hc with ⟨pg, hpg, hcpg⟩
    rw [pageChunks] at hcpg
    by_cases hv : validSentences st pg.text = []
    · rw [if_pos hv] at hcpg
      rcases List.mem_iff_getElem.mp hcpg with ⟨j, hj, hcj⟩
      have hsome : (chunkFromWords md5 pg.pdf_name pg.page 0
          (pySplit pg.text))[j]? = some c := by
        rw [List.getElem?_eq_getElem hj, hcj]
      have hfields := chunkFromWords_getElem md5 pg.pdf_name pg.page j _ 0 c hsome
      exact ⟨pg, hpg, _, hfields.1, hfields.2.1, hfields.2.2⟩
    · rw [if_neg hv] at hcpg
      rcases List.mem_iff_getElem.mp hcpg with ⟨j, hj, hcj⟩
      have hsome : (chunkFromSentences md5 pg.pdf_name pg.page 0
          (validSentences st pg.text))[j]? = some c := by
        rw [List.getElem?_eq_getElem hj, hcj]
      have hfields :=
        chunkFromSentences_getElem md5 pg.pdf_name pg.page j _ 0 c hsome
      exact ⟨pg, hpg, _, hfields.1, hfields.2.1, hfields.2.2⟩
  · intro name page l m j c c2 hc hc2
    rw [(chunkFromSentences_getElem md5 name page j l 0 c hc).2.2,
      (chunkFromSentences_getElem md5 name page j m 0 c2 hc2).2.2]

/-- Claim C4 witness: the identifier formula applied to a concrete
one-sentence page, with the identity function standing in for the MD5
hash. -/
theorem C4_witness :
    (chunkFromSentences (fun s => s) "doc" 1 0 ["a"])[0]?
      = some { text := "a",
               metadata := { pdf_name := "doc", page := 1,
                             chunk_id := "doc_1_0" } } ∧
    ({ text := "a",
       metadata := { pdf_name := "doc", page := 1,
                     chunk_id := "doc_1_0" } } : Chunk).metadata.chunk_id
      = (fun s : String => s)
          (idString "doc" 1 (0 + Config.SENTENCES_PER_CHUNK * 0)) :=
  ⟨by
    rw [chunkFromSentences, dif_neg (by decide), List.getElem?_cons_zero]
    decide,
   (C4_chunk_ids (fun _ => []) (fun s => s) []).2.1 "doc" 1 0 ["a"] 0
     { text := "a",
       metadata := { pdf_name := "doc", page := 1, chunk_id := "doc_1_0" } }
     (by
       rw [chunkFromSentences, dif_neg (by decide), List.getElem?_cons_zero]
       decide)⟩

/-- Claim C7: for a page with at least one valid sentence, the chunk texts
are exactly the joins of the successive groups of `SENTENCES_PER_CHUNK`
valid sentences; each group is a block of consecutive valid sentences of
size at most `SENTENCES_PER_CHUNK`, every group but the last has exactly
`SENTENCES_PER_CHUNK` sentences, concatenating the groups restores the
valid sentences in order, and `chunk_text` emits pages in order. -/
theorem C7_sentence_grouping (st : String → List String)
    (md5 : String → String) (pg : PageText)
    (hvalid : validSentences st pg.text ≠ []) :
    ((pageChunks st md5 pg).map Chunk.text
      = (sGroups (validSentences st pg.text)).map (String.intercalate " ")) ∧
    (∀ (j : Nat) (g : List String),
      (sGroups (validSentences st pg.text))[j]? = some g →
      g = ((validSentences st pg.text).drop
            (Config.SENTENCES_PER_CHUNK * j)).take Config.SENTENCES_PER_CHUNK) ∧
    (∀ g ∈ sGroups (validSentences st pg.text),
      g ≠ [] ∧ g.length ≤ Config.SENTENCES_PER_CHUNK) ∧
    (∀ (j : Nat) (g : List String),
      j + 1 < (sGroups (validSentences st pg.text)).length →
      (sGroups (validSentences st pg.text))[j]? = some g →
      g.length = Config.SENTENCES_PER_CHUNK) ∧
    ((sGroups (validSentences st pg.text)).flatten
      = validSentences st pg.text) ∧
    (∀ pages pages2 : List PageText,
      chunk_text st md5 (pages ++ pages2)
        = chunk_text st md5 pages ++ chunk_text st md5 pages2) := by
  refine ⟨?_, fun j g => sGroups_getElem j _ g, sGroups_mem _,
    fun j g => sGroups_full_length j _ g, sGroups_flatten _, ?_⟩
  · rw [pageChunks, if_neg hvalid]
    exact chunkFromSentences_texts md5 pg.pdf_name pg.page _ 0
  · intro pages pages2
    rw [chunk_text, chunk_text, chunk_text, List.flatMap_append]

/-- Claim C7 witness: the grouping theorem applied to a concrete page with
one valid sentence. -/
theorem C7_witness :
    (pageChunks (fun _ => ["a b c d e"]) (fun s => s)
        { pdf_name := "doc", page := 1, text := "a b c d e" }).map Chunk.text
      = (sGroups (validSentences (fun _ => ["a b c d e"]) "a b c d e")).map
          (String.intercalate " ") :=
  (C7_sentence_grouping (fun _ => ["a b c d e"]) (fun s => s)
    { pdf_name := "doc", page := 1, text := "a b c d e" } (by decide)).1

/-! ### Lemmas about the `combined` dict of `_fuse_results` -/

/-- The keys of the dict, in insertion order. -/
def dkeys (d : List FusedEntry) : List String :=
  d.map FusedEntry.id

theorem mem_dkeys_iff (d : List FusedEntry) (id : String) :
    id ∈ dkeys d ↔ (dlookup id d).isSome := by
  induction d with
  | nil => simp [dkeys, dlookup]
  | cons x xs ih =>
      simp only [dkeys, List.map_cons, List.mem_cons] at ih ⊢
      by_cases hx : x.id = id
      · simp [dlookup, hx]
      · rw [dlookup, if_neg hx, ← ih]
        constructor
        · rintro (h | h)
          · exact absurd h.symm hx
          · exact h
        · exact Or.inr

theorem dlookup_eq_some (d : List FusedEntry) (id : String) (e : FusedEntry)
    (h : dlookup id d = some e) : e ∈ d ∧ e.id = id := by
  induction d with
  | nil => simp [dlookup] at h
  | cons x xs ih =>
      rw [dlookup] at h
      split_ifs at h with hx
      · cases h
        exact ⟨List.mem_cons_self _ _, hx⟩
      · rcases ih h with ⟨h1, h2⟩
        exact ⟨List.mem_cons_of_mem x h1, h2⟩

theorem dlookup_of_mem (d : List FusedEntry) (hnd : (dkeys d).Nodup)
    (e : FusedEntry) (he : e ∈ d) : dlookup e.id d = some e := by
  induction d with
  | nil => simp at he
  | cons x xs ih =>
      rw [dkeys, List.map_cons, List.nodup_cons] at hnd
      rcases List.mem_cons.mp he with he | he
      · subst he
        rw [dlookup, if_pos rfl]
      · have hne : ¬ x.id = e.id := by
          intro hcon
          exact hnd.1 (hcon ▸ (List.mem_map_of_mem FusedEntry.id he))
        rw [dlookup, if_neg hne]
        exact ih hnd.2 he

theorem dlookup_dinsert (e : FusedEntry) (d : List FusedEntry) (id : String) :
    dlookup id (dinsert e d) = if e.id = id then some e else dlookup id d := by
  induction d with
  | nil => simp [dinsert, dlookup]
  | cons x xs ih =>
      by_cases hx : x.id = e.id
      · rw [dinsert, if_pos hx]
        by_cases he : e.id = id
        · rw [dlookup, if_pos he, if_pos he]
        · rw [dlookup, if_neg he, if_neg he, dlookup,
            if_neg (by rw [hx]; exact he)]
      · rw [dinsert, if_neg hx]
        by_cases he : e.id = id
        · rw [dlookup, if_neg (fun hcon => hx (hcon.trans he.symm)), ih,
            if_pos he, if_pos he]
        · rw [dlookup, ih, if_neg he, if_neg he, dlookup]

theorem mem_dkeys_dinsert (e : FusedEntry) (d : List FusedEntry)
    (a : String) : a ∈ dkeys (dinsert e d) ↔ a ∈ dkeys d ∨ a = e.id := by
  induction d with
  | nil => simp [dinsert, dkeys]
  | cons x xs ih =>
      simp only [dkeys, List.map_cons, List.mem_cons] at ih ⊢
      by_cases hx : x.id = e.id
      · rw [dinsert, if_pos hx]
        simp only [dkeys, List.map_cons, List.mem_cons]
        constructor
        · rintro (h | h)
          · exact Or.inr h
          · exact Or.inl (Or.inr h)
        · rintro ((h | h) | h)
          · exact Or.inl (h.trans hx)
          · exact Or.inr h
          · exact Or.inl h
      · rw [dinsert, if_neg hx]
        simp only [dkeys, List.map_cons, List.mem_cons]
        rw [ih]
        tauto

theorem nodup_dkeys_dinsert (e : FusedEntry) (d : List FusedEntry)
    (hnd : (dkeys d).Nodup) : (dkeys (dinsert e d)).Nodup := by
  induction d with
  | nil => simp [dinsert, dkeys]
  | cons x xs ih =>
      rw [dkeys, List.map_cons, List.nodup_cons] at hnd
      rw [dinsert]
      split_ifs with hx
      · rw [dkeys, List.map_cons, List.nodup_cons]
        exact ⟨hx ▸ hnd.1, hnd.2⟩
      · rw [dkeys, List.map_cons, List.nodup_cons]
        refine ⟨?_, ih hnd.2⟩
        intro hcon
        rcases (mem_dkeys_dinsert e xs x.id).mp hcon with h | h
        · exact hnd.1 h
        · exact hx h

theorem dlookup_daddScore (id id2 : String) (s : ℚ) (d : List FusedEntry) :
    dlookup id2 (daddScore id s d)
      = (dlookup id2 d).map (fun e =>
          if e.id = id then { e with score := e.score + s } else e) := by
  induction d with
  | nil => simp [daddScore, dlookup]
  | cons x xs ih =>
      rw [daddScore, List.map_cons]
      by_cases hx : x.id = id2
      · have hid : (if x.id = id then { x with score := x.score + s }
            else x).id = id2 := by
          split_ifs <;> exact hx
        rw [dlookup, if_pos hid, dlookup, if_pos hx]
        simp
      · have hid : ¬ (if x.id = id then { x with score := x.score + s }
            else x).id = id2 := by
          split_ifs <;> exact hx
        rw [dlookup, if_neg hid, dlookup, if_neg hx, ← daddScore, ih]

theorem dkeys_daddScore (id : String) (s : ℚ) (d : List FusedEntry) :
    dkeys (daddScore id s d) = dkeys d := by
  simp only [dkeys, daddScore, List.map_map]
  congr 1
  funext e
  simp only [Function.comp]
  split_ifs <;> rfl

theorem dlookup_append_single (d : List FusedEntry) (e : FusedEntry)
    (id : String) :
    dlookup id (d ++ [e])
      = (match dlookup id d with
         | some x => some x
         | none => if e.id = id then some e else none) := by
  induction d with
  | nil => simp [dlookup]
  | cons x xs ih =>
      rw [List.cons_append, dlookup]
      by_cases hx : x.id = id
      · rw [if_pos hx, dlookup, if_pos hx]
      · rw [if_neg hx, dlookup, if_neg hx, ih]

theorem dcontains_iff (id : String) (d : List FusedEntry) :
    dcontains id d = true ↔ (dlookup id d).isSome := by
  induction d with
  | nil => simp [dcontains, dlookup]
  | cons x xs ih =>
      simp only [dcontains, List.any_cons] at ih ⊢
      by_cases hx : x.id = id
      · rw [dlookup, if_pos hx]
        simp [hx]
      · rw [dlookup, if_neg hx, ← ih]
        constructor
        · intro h
          rcases Bool.or_eq_true_iff.mp h with h | h
          · exact absurd (of_decide_eq_true h) hx
          · exact h
        · intro h
          exact Bool.or_eq_true_iff.mpr (Or.inr h)

theorem vScore_eq_zero (ps : List VPoint) (r : Nat) (id : String)
    (h : id ∉ ps.map VPoint.id) : vScore r ps id = 0 := by
  induction ps generalizing r with
  | nil => rfl
  | cons p ps ih =>
      simp only [List.map_cons, List.mem_cons] at h
      push_neg at h
      rw [vScore, if_neg (fun hcon => h.1 hcon.symm), ih (r + 1) h.2, add_zero]

theorem kScore_eq_zero (ks : List KRow) (r : Nat) (id : String)
    (h : id ∉ ks.map KRow.id) : kScore r ks id = 0 := by
  induction ks generalizing r with
  | nil => rfl
  | cons row ks ih =>
      simp only [List.map_cons, List.mem_cons] at h
      push_neg at h
      rw [kScore, if_neg (fun hcon => h.1 hcon.symm), ih (r + 1) h.2, add_zero]

theorem dlookup_fusePhase1 :
    ∀ (ps : List VPoint), (ps.map VPoint.id).Nodup →
    ∀ (r : Nat) (d : List FusedEntry) (id : String),
      (dlookup id (fusePhase1 r ps d)).map FusedEntry.score
        = if id ∈ ps.map VPoint.id then some (vScore r ps id)
          else (dlookup id d).map FusedEntry.score := by
  intro ps
  induction ps with
  | nil =>
      intro _ r d id
      rw [fusePhase1]
      simp
  | cons p ps ih =>
      intro hnd r d id
      rw [List.map_cons, List.nodup_cons] at hnd
      rw [fusePhase1, ih hnd.2]
      simp only [List.map_cons, List.mem_cons]
      by_cases hmem : id ∈ ps.map VPoint.id
      · have hpid : ¬ p.id = id := fun hcon => hnd.1 (hcon ▸ hmem)
        rw [if_pos hmem, if_pos (Or.inr hmem), vScore, if_neg hpid, zero_add]
      · rw [if_neg hmem]
        by_cases hpid : p.id = id
        · rw [if_pos (Or.inl hpid.symm), dlookup_dinsert,
            if_pos (show (ventry p r).id = id from hpid), vScore,
            if_pos hpid, vScore_eq_zero ps (r + 1) id hmem, add_zero]
          simp [ventry]
        · have hcond : ¬ (id = p.id ∨ id ∈ List.map VPoint.id ps) := by
            rintro (h | h)
            · exact hpid h.symm
            · exact hmem h
          rw [if_neg hcond, dlookup_dinsert,
            if_neg (show ¬ (ventry p r).id = id from hpid)]

theorem mem_dkeys_fusePhase1 :
    ∀ (ps : List VPoint) (r : Nat) (d : List FusedEntry) (id : String),
      id ∈ dkeys (fusePhase1 r ps d) ↔ id ∈ dkeys d ∨ id ∈ ps.map VPoint.id := by
  intro ps
  induction ps with
  | nil =>
      intro r d id
      rw [fusePhase1]
      simp
  | cons p ps ih =>
      intro r d id
      rw [fusePhase1, ih, mem_dkeys_dinsert]
      simp only [ventry, List.map_cons, List.mem_cons]
      tauto

theorem nodup_dkeys_fusePhase1 :
    ∀ (ps : List VPoint) (r : Nat) (d : List FusedEntry),
      (dkeys d).Nodup → (dkeys (fusePhase1 r ps d)).Nodup := by
  intro ps
  induction ps with
  | nil =>
      intro r d hd
      rw [fusePhase1]
      exact hd
  | cons p ps ih =>
      intro r d hd
      rw [fusePhase1]
      exact ih _ _ (nodup_dkeys_dinsert _ _ hd)

theorem dlookup_kstep (r : Nat) (row : KRow) (d : List FusedEntry)
    (id : String) :
    dlookup id (kstep r row d)
      = if row.id = id then
          (match dlookup id d with
           | some e => some { e with score := e.score + 1 / ((r : ℚ) + 60) }
           | none => some (kentry row r))
        else dlookup id d := by
  rw [kstep]
  by_cases hc : dcontains row.id d
  · rw [if_pos hc, dlookup_daddScore]
    by_cases hid : row.id = id
    · subst hid
      rw [if_pos rfl]
      have hsome := (dcontains_iff _ _).mp hc
      cases hd : dlookup row.id d with
      | none => rw [hd] at hsome; simp at hsome
      | some e =>
          have he := dlookup_eq_some _ _ _ hd
          simp only [Option.map_some']
          rw [if_pos he.2]
    · rw [if_neg hid]
      cases hd : dlookup id d with
      | none => rfl
      | some e =>
          have he := dlookup_eq_some _ _ _ hd
          simp only [Option.map_some']
          rw [if_neg (by rw [he.2]; exact fun hcon => hid hcon.symm)]
  · rw [if_neg hc, dlookup_append_single]
    by_cases hid : row.id = id
    · subst hid
      have hnone : dlookup row.id d = none := by
        cases hd : dlookup row.id d with
        | none => rfl
        | some e =>
            exact absurd ((dcontains_iff _ _).mpr (by rw [hd]; rfl)) hc
      rw [hnone, if_pos rfl]
      show (if (kentry row r).id = row.id then some (kentry row r) else none)
        = some (kentry row r)
      rw [if_pos (show (kentry row r).id = row.id from rfl)]
    · rw [if_neg hid]
      cases hd : dlookup id d with
      | none =>
          show (if (kentry row r).id = id then some (kentry row r) else none)
            = none
          rw [if_neg (show ¬ (kentry row r).id = id from hid)]
      | some e => rfl

theorem mem_dkeys_kstep (r : Nat) (row : KRow) (d : List FusedEntry)
    (id2 : String) :
    id2 ∈ dkeys (kstep r row d) ↔ id2 ∈ dkeys d ∨ id2 = row.id := by
  rw [kstep]
  by_cases hc : dcontains row.id d
  · rw [if_pos hc, dkeys_daddScore]
    constructor
    · exact Or.inl
    · rintro (h | h)
      · exact h
      · subst h
        exact (mem_dkeys_iff _ _).mpr ((dcontains_iff _ _).mp hc)
  · rw [if_neg hc]
    simp only [dkeys, List.map_append, List.mem_append, List.map_cons,
      List.map_nil, List.mem_singleton, kentry]

theorem nodup_dkeys_kstep (r : Nat) (row : KRow) (d : List FusedEntry)
    (hd : (dkeys d).Nodup) : (dkeys (kstep r row d)).Nodup := by
  rw [kstep]
  by_cases hc : dcontains row.id d
  · rw [if_pos hc, dkeys_daddScore]
    exact hd
  · rw [if_neg hc]
    simp only [dkeys, List.map_append, List.map_cons, List.map_nil]
    rw [List.nodup_append]
    refine ⟨hd, List.nodup_singleton _, ?_⟩
    intro a ha hb
    rw [List.mem_singleton] at hb
    subst hb
    have : (dlookup (kentry row r).id d).isSome := (mem_dkeys_iff _ _).mp ha
    exact hc ((dcontains_iff _ _).mpr this)

theorem dlookup_fusePhase2 :
    ∀ (ks : List KRow), (ks.map KRow.id).Nodup →
    ∀ (r : Nat) (d : List FusedEntry) (id : String),
      (dlookup id (fusePhase2 r ks d)).map FusedEntry.score
        = (match (dlookup id d).map FusedEntry.score with
           | some s => some (s + kScore r ks id)
           | none =>
               if id ∈ ks.map KRow.id then some (kScore r ks id) else none) := by
  intro ks
  induction ks with
  | nil =>
      intro _ r d id
      rw [fusePhase2]
      cases hd : dlookup id d with
      | none => simp
      | some e => simp [kScore]
  | cons row ks ih =>
      intro hnd r d id
      rw [List.map_cons, List.nodup_cons] at hnd
      rw [fusePhase2, ih hnd.2, dlookup_kstep]
      by_cases hid : row.id = id
      · subst hid
        rw [if_pos rfl]
        have hks0 : kScore (r + 1) ks row.id = 0 :=
          kScore_eq_zero ks (r + 1) row.id hnd.1
        have hmem : row.id ∈ List.map KRow.id (row :: ks) := by
          rw [List.map_cons]
          exact List.mem_cons_self _ _
        have hkhead : kScore r (row :: ks) row.id = 1 / ((r : ℚ) + 60) := by
          rw [kScore, if_pos rfl, hks0, add_zero]
        cases hd : dlookup row.id d with
        | none =>
            simp only [Option.map_some', Option.map_none']
            rw [hks0, add_zero, if_pos hmem, hkhead]
            simp [kentry]
        | some e =>
            simp only [Option.map_some']
            rw [hks0, add_zero, hkhead]
      · rw [if_neg hid]
        have hkseq : kScore r (row :: ks) id = kScore (r + 1) ks id := by
          rw [kScore, if_neg hid, zero_add]
        cases hd : dlookup id d with
        | none =>
            simp only [Option.map_none']
            rw [hkseq]
            by_cases hmk : id ∈ List.map KRow.id ks
            · rw [if_pos hmk, if_pos (by
                rw [List.map_cons]
                exact List.mem_cons_of_mem _ hmk)]
            · rw [if_neg hmk, if_neg (by
                rw [List.map_cons, List.mem_cons]
                rintro (h | h)
                · exact hid h.symm
                · exact hmk h)]
        | some e =>
            simp only [Option.map_some']
            rw [hkseq]

theorem mem_dkeys_fusePhase2 :
    ∀ (ks : List KRow) (r : Nat) (d : List FusedEntry) (id2 : String),
      id2 ∈ dkeys (fusePhase2 r ks d) ↔ id2 ∈ dkeys d ∨ id2 ∈ ks.map KRow.id := by
  intro ks
  induction ks with
  | nil =>
      intro r d id2
      rw [fusePhase2]
      simp
  | cons row ks ih =>
      intro r d id2
      rw [fusePhase2, ih, mem_dkeys_kstep]
      simp only [List.map_cons, List.mem_cons]
      tauto

theorem nodup_dkeys_fusePhase2 :
    ∀ (ks : List KRow) (r : Nat) (d : List FusedEntry),
      (dkeys d).Nodup → (dkeys (fusePhase2 r ks d)).Nodup := by
  intro ks
  induction ks with
  | nil =>
      intro r d hd
      rw [fusePhase2]
      exact hd
  | cons row ks ih =>
      intro r d hd
      rw [fusePhase2]
      exact ih _ _ (nodup_dkeys_kstep _ _ _ hd)

theorem fusedDict_nodup (v : List VPoint) (k : List KRow) :
    (dkeys (fusedDict v k)).Nodup := by
  rw [fusedDict]
  exact nodup_dkeys_fusePhase2 _ _ _
    (nodup_dkeys_fusePhase1 _ _ _ (by simp [dkeys]))

theorem fusedDict_mem_keys (v : List VPoint) (k : List KRow) (id : String) :
    id ∈ dkeys (fusedDict v k)
      ↔ id ∈ v.map VPoint.id ∨ id ∈ k.map KRow.id := by
  rw [fusedDict, mem_dkeys_fusePhase2, mem_dkeys_fusePhase1]
  simp [dkeys]

theorem fusedDict_score (v : List VPoint) (k : List KRow)
    (hv : (v.map VPoint.id).Nodup) (hk : (k.map KRow.id).Nodup) :
    ∀ e ∈ fusedDict v k, e.score = rrfScore v k e.id := by
  intro e he
  have hlk : dlookup e.id (fusedDict v k) = some e :=
    dlookup_of_mem _ (fusedDict_nodup v k) e he
  rw [fusedDict] at hlk
  have h2 := dlookup_fusePhase2 k hk 1 (fusePhase1 1 v []) e.id
  rw [hlk] at h2
  have h1 := dlookup_fusePhase1 v hv 1 [] e.id
  by_cases hmv : e.id ∈ v.map VPoint.id
  · rw [if_pos hmv] at h1
    rw [h1] at h2
    simp only [Option.map_some'] at h2
    rw [rrfScore]
    exact Option.some.inj h2
  · rw [if_neg hmv] at h1
    have h1n : (dlookup e.id (fusePhase1 1 v [])).map FusedEntry.score
        = none := by
      rw [h1]
      rfl
    rw [h1n] at h2
    simp only [Option.map_some'] at h2
    by_cases hmk : e.id ∈ k.map KRow.id
    · rw [if_pos hmk] at h2
      rw [rrfScore, vScore_eq_zero v 1 e.id hmv, zero_add]
      exact Option.some.inj h2
    · rw [if_neg hmk] at h2
      exact absurd h2 (by simp)

/-- Claim C2: over two candidate lists keyed by chunk identifier,
`_fuse_results` gives every output entry the Reciprocal Rank Fusion score
`sum of 1/(rank+60)` over the lists in which its id appears (both
contributions summed when it appears in both), sorts by non-increasing
fused score, and truncates to `SIMILARITY_TOP_K`: the output never exceeds
`SIMILARITY_TOP_K` entries, and an input id missing from the output implies
the output is full and every retained entry scores at least the omitted
id's fused score. -/
theorem C2_fuse_results (v : List VPoint) (k : List KRow)
    (hv : (v.map VPoint.id).Nodup) (hk : (k.map KRow.id).Nodup) :
    (∀ e ∈ fuse_results v k, e.score = rrfScore v k e.id ∧
      (e.id ∈ v.map VPoint.id ∨ e.id ∈ k.map KRow.id)) ∧
    (fuse_results v k).Pairwise (fun a b => b.score ≤ a.score) ∧
    (fuse_results v k).length ≤ Config.SIMILARITY_TOP_K ∧
    (∀ id, (id ∈ v.map VPoint.id ∨ id ∈ k.map KRow.id) →
      id ∉ (fuse_results v k).map FusedEntry.id →
      (fuse_results v k).length = Config.SIMILARITY_TOP_K ∧
      ∀ e ∈ fuse_results v k, rrfScore v k id ≤ e.score) := by
  have hmem_dict : ∀ e ∈ fuse_results v k, e ∈ fusedDict v k := by
    intro e he
    rw [fuse_results] at he
    exact mem_ssort.mp (List.mem_of_mem_take he)
  refine ⟨?_, ?_, ?_, ?_⟩
  · intro e he
    have hd := hmem_dict e he
    refine ⟨fusedDict_score v k hv hk e hd, ?_⟩
    rw [← fusedDict_mem_keys]
    exact List.mem_map_of_mem _ hd
  · rw [fuse_results]
    exact List.Pairwise.sublist (List.take_sublist _ _)
      (ssort_sorted FusedEntry.score _)
  · rw [fuse_results]
    exact List.length_take_le _ _
  · intro id hin hnot
    have hkeys : id ∈ dkeys (fusedDict v k) :=
      (fusedDict_mem_keys v k id).mpr hin
    rcases List.mem_map.mp hkeys with ⟨e0, he0, he0id⟩
    have he0sorted : e0 ∈ ssort FusedEntry.score (fusedDict v k) :=
      mem_ssort.mpr he0
    have he0drop : e0 ∈ (ssort FusedEntry.score (fusedDict v k)).drop
        Config.SIMILARITY_TOP_K := by
      have hsplit := List.take_append_drop Config.SIMILARITY_TOP_K
        (ssort FusedEntry.score (fusedDict v k))
      rw [← hsplit] at he0sorted
      rcases List.mem_append.mp he0sorted with h | h
      · exfalso
        apply hnot
        rw [fuse_results]
        exact he0id ▸ List.mem_map_of_mem _ h
      · exact h
    have hdropne : (ssort FusedEntry.score (fusedDict v k)).drop
        Config.SIMILARITY_TOP_K ≠ [] := by
      intro hcon
      rw [hcon] at he0drop
      simp at he0drop
    have hlen : Config.SIMILARITY_TOP_K
        < (ssort FusedEntry.score (fusedDict v k)).length := by
      by_contra hcon
      push_neg at hcon
      exact hdropne (List.drop_eq_nil_of_le hcon)
    constructor
    · rw [fuse_results, List.length_take]
      omega
    · intro e he
      have hescore := fusedDict_score v k hv hk e0 he0
      have hetake : e ∈ (ssort FusedEntry.score (fusedDict v k)).take
          Config.SIMILARITY_TOP_K := by
        rw [fuse_results] at he
        exact he
      have hrel := pairwise_take_drop
        (ssort_sorted FusedEntry.score (fusedDict v k))
        Config.SIMILARITY_TOP_K e hetake e0 he0drop
      rw [← he0id, ← hescore]
      exact hrel

/-- Claim C2 witness: the fusion theorem applied to one concrete vector hit
and one concrete keyword row with distinct ids. -/
theorem C2_witness :
    (fuse_results
        [{ id := "a", payload := { text := "t", pdf_name := "d", page := 1 } }]
        [{ id := "b", text := "u", pdf_name := "e", page := 2 }]).Pairwise
      (fun a b => b.score ≤ a.score) :=
  (C2_fuse_results
    [{ id := "a", payload := { text := "t", pdf_name := "d", page := 1 } }]
    [{ id := "b", text := "u", pdf_name := "e", page := 2 }]
    (by decide) (by decide)).2.1

/-! ### Lemmas about `_generate_embeddings` -/

theorem alookup_adset {E : Type} (m : List (String × E)) (k : String)
    (v : E) (key : String) :
    alookup (adset m k v) key = if k = key then some v else alookup m key := by
  induction m with
  | nil => simp [adset, alookup]
  | cons p m ih =>
      rcases p with ⟨k0, v0⟩
      rw [adset]
      by_cases hk : k0 = k
      · rw [if_pos hk]
        by_cases hkey : k = key
        · rw [alookup, if_pos hkey, if_pos hkey]
        · rw [alookup, if_neg hkey, if_neg hkey, alookup,
            if_neg (hk ▸ hkey)]
      · rw [if_neg hk]
        by_cases hkey : k = key
        · rw [alookup, if_neg (fun hcon => hk (hcon.trans hkey.symm)), ih,
            if_pos hkey, if_pos hkey]
        · rw [alookup, ih, if_neg hkey, if_neg hkey, alookup]

theorem cachedPhase_aux {E : Type} (cache : List (String × E)) :
    ∀ (chunks : List EChunk) (em0 : List (String × E)) (id : String),
      alookup (chunks.foldl (fun em c =>
        match alookup cache c.chunk_id with
        | some v => adset em c.chunk_id v
        | none => em) em0) id
      = if chunks.any (fun c => c.chunk_id = id
            && (alookup cache c.chunk_id).isSome)
        then alookup cache id else alookup em0 id := by
  intro chunks
  induction chunks with
  | nil =>
      intro em0 id
      simp
  | cons c cs ih =>
      intro em0 id
      rw [List.foldl_cons, List.any_cons, ih]
      cases hcache : alookup cache c.chunk_id with
      | none =>
          simp only [Option.isSome_none, Bool.and_false, Bool.false_or]
      | some v =>
          by_cases hcid : c.chunk_id = id
          · have hpc : (decide (c.chunk_id = id)
                && (some v).isSome) = true := by simp [hcid]
            rw [if_pos (Bool.or_eq_true_iff.mpr (Or.inl hpc))]
            by_cases hany : (cs.any fun c => decide (c.chunk_id = id)
                && (alookup cache c.chunk_id).isSome) = true
            · rw [if_pos hany]
            · rw [if_neg hany, alookup_adset, if_pos hcid, ← hcid, hcache]
          · have hpc : (decide (c.chunk_id = id)
                && (some v).isSome) = false := by simp [hcid]
            by_cases hany : (cs.any fun c => decide (c.chunk_id = id)
                && (alookup cache c.chunk_id).isSome) = true
            · rw [if_pos hany, if_pos (Bool.or_eq_true_iff.mpr (Or.inr hany))]
            · have hcondneg : ¬ ((decide (c.chunk_id = id) && (some v).isSome
                  || cs.any fun c => decide (c.chunk_id = id)
                    && (alookup cache c.chunk_id).isSome) = true) := by
                intro hcon
                rcases Bool.or_eq_true_iff.mp hcon with h | h
                · rw [hpc] at h
                  cases h
                · exact hany h
              rw [if_neg hany, if_neg hcondneg, alookup_adset, if_neg hcid]

theorem cachedPhase_lookup {E : Type} (cache : List (String × E))
    (chunks : List EChunk) (id : String) :
    alookup (cachedPhase cache chunks) id
      = if chunks.any (fun c => c.chunk_id = id
            && (alookup cache c.chunk_id).isSome)
        then alookup cache id else none := by
  rw [cachedPhase, cachedPhase_aux]
  by_cases hany : chunks.any (fun c => c.chunk_id = id
      && (alookup cache c.chunk_id).isSome) = true
  · rw [if_pos hany, if_pos hany]
  · rw [if_neg hany, if_neg hany, alookup]

theorem cmap_preserve {E : Type} (cache : List (String × E)) :
    ∀ (chunks : List EChunk) (m0 : List (String × String)) (t : String),
      (∀ c ∈ chunks, c.text ≠ t) →
      alookup (chunks.foldl (fun m c =>
        if (alookup cache c.chunk_id).isNone then adset m c.text c.chunk_id
        else m) m0) t = alookup m0 t := by
  intro chunks
  induction chunks with
  | nil => intro m0 t _; rfl
  | cons c cs ih =>
      intro m0 t hne
      rw [List.foldl_cons]
      rw [ih _ t (fun c' hc' => hne c' (List.mem_cons_of_mem c hc'))]
      by_cases hcache : (alookup cache c.chunk_id).isNone = true
      · rw [if_pos hcache, alookup_adset,
          if_neg (hne c (List.mem_cons_self _ _))]
      · rw [if_neg hcache]

theorem cmap_lookup {E : Type} (cache : List (String × E)) :
    ∀ (chunks : List EChunk), (chunks.map EChunk.text).Nodup →
    ∀ c ∈ chunks, (alookup cache c.chunk_id).isNone = true →
      alookup (chunksToEmbedMap cache chunks) c.text = some c.chunk_id := by
  have haux : ∀ (chunks : List EChunk), (chunks.map EChunk.text).Nodup →
      ∀ c ∈ chunks, (alookup cache c.chunk_id).isNone = true →
      ∀ m0, alookup (chunks.foldl (fun m c =>
        if (alookup cache c.chunk_id).isNone then adset m c.text c.chunk_id
        else m) m0) c.text = some c.chunk_id := by
    intro chunks
    induction chunks with
    | nil => intro _ c hc; simp at hc
    | cons c0 cs ih =>
        intro hnd c hc hunc m0
        rw [List.map_cons, List.nodup_cons] at hnd
        rw [List.foldl_cons]
        rcases List.mem_cons.mp hc with hc | hc
        · subst hc
          have hpres : ∀ c' ∈ cs, c'.text ≠ c.text := by
            intro c' hc' hcon
            exact hnd.1 (hcon ▸ List.mem_map_of_mem EChunk.text hc')
          rw [cmap_preserve cache cs _ c.text hpres, if_pos hunc,
            alookup_adset, if_pos rfl]
        · exact ih hnd.2 c hc hunc _
  intro chunks hnd c hc hunc
  rw [chunksToEmbedMap]
  exact haux chunks hnd c hc hunc []

theorem cmap_values {E : Type} (cache : List (String × E)) :
    ∀ (chunks : List EChunk) (m0 : List (String × String)) (t cid : String),
      alookup (chunks.foldl (fun m c =>
        if (alookup cache c.chunk_id).isNone then adset m c.text c.chunk_id
        else m) m0) t = some cid →
      alookup m0 t = some cid ∨
        ∃ c ∈ chunks, c.text = t ∧ c.chunk_id = cid ∧
          (alookup cache c.chunk_id).isNone = true := by
  intro chunks
  induction chunks with
  | nil =>
      intro m0 t cid h
      exact Or.inl h
  | cons c cs ih =>
      intro m0 t cid h
      rw [List.foldl_cons] at h
      rcases ih _ t cid h with h2 | ⟨c', hc', h3⟩
      · by_cases hcache : (alookup cache c.chunk_id).isNone = true
        · rw [if_pos hcache, alookup_adset] at h2
          by_cases ht : c.text = t
          · rw [if_pos ht] at h2
            cases h2
            exact Or.inr ⟨c, List.mem_cons_self _ _, ht, rfl, hcache⟩
          · rw [if_neg ht] at h2
            exact Or.inl h2
        · rw [if_neg hcache] at h2
          exact Or.inl h2
      · exact Or.inr ⟨c', List.mem_cons_of_mem c hc', h3⟩

theorem embedfold_preserve {E : Type} (cmap : List (String × String)) :
    ∀ (pairs : List (String × E)) (em0 : List (String × E)) (id : String),
      (∀ p ∈ pairs, ∀ cid, alookup cmap p.1 = some cid → cid ≠ id) →
      alookup (pairs.foldl (fun em p =>
        match alookup cmap p.1 with
        | some cid => adset em cid p.2
        | none => em) em0) id = alookup em0 id := by
  intro pairs
  induction pairs with
  | nil => intro em0 id _; rfl
  | cons p ps ih =>
      intro em0 id hne
      rw [List.foldl_cons]
      rw [ih _ id (fun p' hp' => hne p' (List.mem_cons_of_mem p hp'))]
      cases hcm : alookup cmap p.1 with
      | none => rfl
      | some cid =>
          rw [alookup_adset,
            if_neg (hne p (List.mem_cons_self _ _) cid hcm)]

theorem embedfold_isSome_mono {E : Type} (cmap : List (String × String)) :
    ∀ (pairs : List (String × E)) (em0 : List (String × E)) (id : String),
      (alookup em0 id).isSome = true →
      (alookup (pairs.foldl (fun em p =>
        match alookup cmap p.1 with
        | some cid => adset em cid p.2
        | none => em) em0) id).isSome = true := by
  intro pairs
  induction pairs with
  | nil => intro em0 id h; exact h
  | cons p ps ih =>
      intro em0 id h
      rw [List.foldl_cons]
      apply ih
      cases hcm : alookup cmap p.1 with
      | none => exact h
      | some cid =>
          rw [alookup_adset]
          by_cases hcid : cid = id
          · rw [if_pos hcid]; rfl
          · rw [if_neg hcid]; exact h

theorem embedfold_sets {E : Type} (cmap : List (String × String)) :
    ∀ (pairs : List (String × E)) (em0 : List (String × E)) (id : String),
      (∃ p ∈ pairs, alookup cmap p.1 = some id) →
      (alookup (pairs.foldl (fun em p =>
        match alookup cmap p.1 with
        | some cid => adset em cid p.2
        | none => em) em0) id).isSome = true := by
  intro pairs
  induction pairs with
  | nil =>
      intro em0 id h
      rcases h with ⟨p, hp, _⟩
      simp at hp
  | cons p ps ih =>
      intro em0 id h
      rcases h with ⟨p', hp', hcm⟩
      rcases List.mem_cons.mp hp' with hp' | hp'
      · subst hp'
        rw [List.foldl_cons]
        apply embedfold_isSome_mono
        rw [hcm, alookup_adset, if_pos rfl]
        rfl
      · rw [List.foldl_cons]
        exact ih _ id ⟨p', hp', hcm⟩

theorem readBack_some {E : Type} (em : List (String × E)) :
    ∀ (chunks : List EChunk),
      (∀ c ∈ chunks, (alookup em c.chunk_id).isSome = true) →
      ∃ res, readBack em chunks = some res ∧
        res.length = chunks.length ∧
        ∀ (j : Nat), res[j]?
          = (chunks[j]?.bind (fun c => alookup em c.chunk_id)) := by
  intro chunks
  induction chunks with
  | nil =>
      intro _
      exact ⟨[], rfl, rfl, fun j => by simp⟩
  | cons c cs ih =>
      intro h
      have hc := h c (List.mem_cons_self _ _)
      rcases Option.isSome_iff_exists.mp hc with ⟨v, hv⟩
      rcases ih (fun c' hc' => h c' (List.mem_cons_of_mem c hc'))
        with ⟨res, hres, hlen, hidx⟩
      refine ⟨v :: res, ?_, by simp [hlen], ?_⟩
      · rw [readBack, hv, hres]
      · intro j
        cases j with
        | zero => simp [hv]
        | succ j => simp [hidx j]

/-- Claim C5 counterexample: two uncached chunks with the same text but
different identifiers make `_generate_embeddings` raise a `KeyError`
(modelled as `none`): `chunks_to_embed_map` is keyed by chunk text, so the
second id overwrites the first and the final per-chunk read-back fails —
no list with one embedding per input chunk is returned. -/
theorem C5_counterexample :
    generate_embeddings (fun l => l.map (fun _ => (0 : Nat))) []
      [{ text := "t", chunk_id := "A" }, { text := "t", chunk_id := "B" }]
      = none := by decide

/-- Claim C5 (amended): provided the input chunks have pairwise-distinct
texts (and the model returns one vector per text), `_generate_embeddings`
checks the cache before the model: every chunk whose id is cached gets the
cached vector at its input position and its text is not sent to the model,
the model is invoked only on texts of uncached chunks, and the returned
list has exactly one embedding per input chunk, in input order. -/
theorem C5_embedding_cache {E : Type} (encode : List String → List E)
    (cache : List (String × E)) (chunks : List EChunk)
    (hnd : (chunks.map EChunk.text).Nodup)
    (henc : ∀ l, (encode l).length = l.length) :
    (∃ res, generate_embeddings encode cache chunks = some res ∧
      res.length = chunks.length ∧
      ∀ (j : Nat) (c : EChunk) (v : E), chunks[j]? = some c →
        alookup cache c.chunk_id = some v → res[j]? = some v) ∧
    (∀ c ∈ chunks, (alookup cache c.chunk_id).isSome = true →
      c.text ∉ texts_to_embed cache chunks) ∧
    (∀ t ∈ texts_to_embed cache chunks,
      ∃ c ∈ chunks, c.text = t ∧ alookup cache c.chunk_id = none) := by
  have htte_mem : ∀ t ∈ texts_to_embed cache chunks,
      ∃ c ∈ chunks, c.text = t ∧ alookup cache c.chunk_id = none := by
    intro t ht
    rw [texts_to_embed] at ht
    rcases List.mem_map.mp ht with ⟨c, hc, hct⟩
    rcases List.mem_filter.mp hc with ⟨hcmem, hcnone⟩
    exact ⟨c, hcmem, hct, Option.isNone_iff_eq_none.mp (by simpa using hcnone)⟩
  have hcached_not_sent : ∀ c ∈ chunks, (alookup cache c.chunk_id).isSome = true →
      c.text ∉ texts_to_embed cache chunks := by
    intro c hc hcs hmem
    rcases htte_mem c.text hmem with ⟨c', hc', hct, hcnone⟩
    have hceq : c' = c := List.inj_on_of_nodup_map hnd hc' hc hct
    rw [hceq] at hcnone
    rw [hcnone] at hcs
    cases hcs
  refine ⟨?_, hcached_not_sent, htte_mem⟩
  rw [generate_embeddings]
  set em := cachedPhase cache chunks with hem
  set tte := texts_to_embed cache chunks with htte
  set cmap := chunksToEmbedMap cache chunks with hcmap
  set em2 := (if tte = [] then em
    else (tte.zip (encode tte)).foldl (fun em p =>
      match alookup cmap p.1 with
      | some cid => adset em cid p.2
      | none => em) em) with hem2
  have hcachedlook : ∀ c ∈ chunks, ∀ v, alookup cache c.chunk_id = some v →
      alookup em c.chunk_id = some v := by
    intro c hc v hv
    rw [hem, cachedPhase_lookup]
    rw [if_pos (by
      rw [List.any_eq_true]
      exact ⟨c, hc, by rw [hv]; simp⟩)]
    exact hv
  have hvalues : ∀ p cid, alookup cmap p = some cid →
      alookup cache cid = none := by
    intro p cid hp
    rw [hcmap, chunksToEmbedMap] at hp
    rcases cmap_values cache chunks [] p cid hp with h | ⟨c', _, _, hcid, hnone⟩
    · simp [alookup] at h
    · rw [← hcid]
      exact Option.isNone_iff_eq_none.mp hnone
  have hem2cached : ∀ c ∈ chunks, ∀ v, alookup cache c.chunk_id = some v →
      alookup em2 c.chunk_id = some v := by
    intro c hc v hv
    rw [hem2]
    by_cases h0 : tte = []
    · rw [if_pos h0]
      exact hcachedlook c hc v hv
    · rw [if_neg h0]
      rw [embedfold_preserve cmap _ _ _ (by
        intro p _ cid hcm hcon
        have := hvalues p.1 cid hcm
        rw [hcon, hv] at this
        cases this)]
      exact hcachedlook c hc v hv
  have hem2some : ∀ c ∈ chunks, (alookup em2 c.chunk_id).isSome = true := by
    intro c hc
    cases hv : alookup cache c.chunk_id with
    | some v =>
        rw [hem2cached c hc v hv]
        rfl
    | none =>
        have hctte : c.text ∈ tte := by
          rw [htte, texts_to_embed]
          exact List.mem_map_of_mem _ (List.mem_filter.mpr
            ⟨hc, by rw [hv]; rfl⟩)
        have h0 : tte ≠ [] := fun hcon => by
          rw [hcon] at hctte
          simp at hctte
        rw [hem2, if_neg h0]
        apply embedfold_sets
        rcases List.mem_iff_getElem.mp hctte with ⟨i, hi, hti⟩
        have hzlen : (tte.zip (encode tte)).length = tte.length := by
          rw [List.length_zip, henc tte, Nat.min_self]
        have hip : i < (tte.zip (encode tte)).length := by omega
        refine ⟨(tte.zip (encode tte))[i], List.getElem_mem hip, ?_⟩
        rw [List.getElem_zip, hti]
        exact cmap_lookup cache chunks hnd c hc (by rw [hv]; rfl)
  rcases readBack_some em2 chunks hem2some with ⟨res, hres, hlen, hidx⟩
  refine ⟨res, hres, hlen, ?_⟩
  intro j c v hj hv
  rw [hidx j, hj]
  exact hem2cached c (by
    have := List.getElem?_eq_some_iff.mp hj
    rcases this with ⟨h, hg⟩
    exact hg ▸ List.getElem_mem h) v hv

/-- Claim C5 witness: the amended cache theorem applied at a concrete cache
and chunk list with distinct texts. -/
theorem C5_witness :
    "t" ∉ texts_to_embed [("A", (7 : Nat))]
      [{ text := "t", chunk_id := "A" }, { text := "u", chunk_id := "B" }] :=
  (C5_embedding_cache (fun l => l.map (fun _ => (0 : Nat)))
    [("A", (7 : Nat))]
    [{ text := "t", chunk_id := "A" }, { text := "u", chunk_id := "B" }]
    (by decide) (fun l => by simp)).2.1
    { text := "t", chunk_id := "A" } (by decide) (by decide)

end NDocs
